import Mathlib

/-! A verification development for `adjust.cpp`, as a shallow embedding.

* A `std::string` is a `List Char`.
* A `double` is an exact rational (`ℚ`) where only finite values that no sum rounds
  are in question; the section on `double` values has the finite values, the
  infinities and NaN, with the rounding of a sum as a parameter.
* `stdin` is the list of bytes still to be read; `getc` takes the head, and
  returns `EOF` on the empty list.
* `system` and `printf` append to the trace carried by the loop.
* `operator<<` for a `double` belongs to the standard library; it is the
  parameter `fmt`.
* The configuration file is the list of its characters; `fscanf` is modelled for
  the one format string the program uses.
* `main` takes the argument vector, the terminal and the file as it finds them, and
  `stdin`.
-/

namespace Adjust

/-! ## Data model -/

/-- The tuple `adjustment`: attribute name, low, high, step, initial value, command. -/
structure adjustment where
  name : List Char
  low : ℚ
  high : ℚ
  step : ℚ
  initial : ℚ
  command : List Char
deriving DecidableEq

/-- The key code of `#define LEFT 'D'`. -/
def LEFT : Nat := 68

/-- The key code of `#define RIGHT 'C'`. -/
def RIGHT : Nat := 67

/-- The key code of the quit key, `'q'`. -/
def QUIT : Nat := 113

/-- The escape byte that opens a cursor-key sequence. -/
def ESC : Nat := 27

/-! ## Library functions used by `adjust` -/

/-- `std::max(a, b)`: `(a < b) ? b : a`. -/
def std_max (a b : ℚ) : ℚ := if a < b then b else a

/-- `std::min(a, b)`: `(b < a) ? b : a`. -/
def std_min (a b : ℚ) : ℚ := if b < a then b else a

/-- `std::find(s.begin(), s.end(), c)` as an offset from `s.begin()`: the index
of the first `c`, or `s.length` (the `end()` iterator) when there is none. -/
def std_find : List Char → Char → Nat
  | [], _ => 0
  | x :: xs, c => if x = c then 0 else std_find xs c + 1

/-- `std::copy(s.begin() + first, s.begin() + last, out)`: the characters from
offset `first` up to offset `last` are appended to `out`. When `first` lies beyond
`last`, which C++ leaves undefined, nothing is copied: libstdc++, the library of the
build instructions, copies `last - first` characters while that count is positive. -/
def std_copy (s : List Char) (first last : Nat) (out : List Char) : List Char :=
  out ++ (s.drop first).take (last - first)

/-- The text of the appended redirection. -/
def suffix : List Char := " 2>/dev/null".toList

/-! ## `adjust` -/

/-- Lines 101-105: the value after a key has been looked at. -/
def adjustValue (a : adjustment) (key : Nat) (value : ℚ) : ℚ :=
  let value := if key = LEFT then std_max (value - a.step) a.low else value
  if key = RIGHT then std_min (value + a.step) a.high else value

/-- Lines 107-116: the content of the string stream `output`. -/
def buildCommand (fmt : ℚ → List Char) (command : List Char) (value : ℚ) : List Char :=
  let output : List Char := []
  let output := std_copy command 0 (std_find command '%') output
  let output := output ++ fmt value
  let output := std_copy command (std_find command '%' + 1) command.length output
  output ++ suffix

/-- What the loop has done so far and, at the end, returns. -/
structure Session where
  value : ℚ
  commands : List (List Char)
  echoes : List (List Char × ℚ)
deriving DecidableEq

/-- One pass through the statements after the two early exits: update the value,
build the command, echo the value, run the command. -/
def runBody (fmt : ℚ → List Char) (a : adjustment) (key : Nat) (s : Session) : Session :=
  let value := adjustValue a key s.value
  { value := value
    commands := s.commands ++ [buildCommand fmt a.command value]
    echoes := s.echoes ++ [(a.name, value)] }

/-- The `do ... while ((key = getc(stdin)) != EOF)` loop, entered at the top of
its body with the current `key`; `stdin` is what is left to read. -/
def doWhile (fmt : ℚ → List Char) (a : adjustment) : List Nat → Nat → Session → Session
  | stdin, key, s =>
    if key = QUIT then s
    else if key = ESC then
      match stdin with
      | [] => s
      | [_] => s
      | _ :: key :: stdin => doWhile fmt a stdin key s
    else
      match stdin with
      | [] => runBody fmt a key s
      | key1 :: stdin => doWhile fmt a stdin key1 (runBody fmt a key s)

/-- The function `adjust`: the loop is entered with `key = 0` and the initial value. -/
def adjust (fmt : ℚ → List Char) (a : adjustment) (stdin : List Nat) : Session :=
  doWhile fmt a stdin 0 { value := a.initial, commands := [], echoes := [] }

/-- The `while ((key = getc(stdin)) != EOF)` test: read a key, leave at end of input. -/
def whileCond (fmt : ℚ → List Char) (a : adjustment) (stdin : List Nat) (s : Session) : Session :=
  match stdin with
  | [] => s
  | key :: stdin => doWhile fmt a stdin key s

/-- Whether the loop, having read all of `stdin`, stands at the `getc` of line 97
that skips the byte after an escape byte. -/
def swallowsNext : List Nat → Bool
  | [] => false
  | key :: stdin =>
    if key = QUIT then false
    else if key = ESC then
      match stdin with
      | [] => true
      | _ :: stdin => swallowsNext stdin
    else swallowsNext stdin

/-! ## Default formatting of a value

A stand-in for the library's `operator<<`, used where a concrete formatter is
needed: style `%g` at precision 6, computed on the exact rational. -/

/-- The least `k` from `k` on, at most `fuel` further, with `d ≤ n * 10 ^ k`. -/
def shiftUp (n d : Nat) : Nat → Nat → Nat
  | 0, k => k
  | fuel + 1, k => if d ≤ n * 10 ^ k then k else shiftUp n d fuel (k + 1)

/-- The decimal exponent `X` of `n / d`, with `10 ^ X ≤ n / d < 10 ^ (X + 1)`, for
positive `n` and `d`. -/
def decimalExponent (n d : Nat) : Int :=
  if d ≤ n then ((Nat.toDigits 10 (n / d)).length : Int) - 1
  else - (shiftUp n d d 0 : Int)

/-- Quotient rounded to the nearest natural number, ties to even. -/
def roundDiv (n d : Nat) : Nat :=
  let q := n / d
  let r := n % d
  if d < 2 * r ∨ (d = 2 * r ∧ q % 2 = 1) then q + 1 else q

/-- The six significant digits of `n / d` at decimal exponent `x`. -/
def mantissa (n d : Nat) (x : Int) : Nat :=
  if x ≤ 5 then roundDiv (n * 10 ^ (5 - x).toNat) d else roundDiv n (d * 10 ^ (x - 5).toNat)

/-- Drop the zeros at the end of a digit string. -/
def stripZeros (ds : List Char) : List Char :=
  (ds.reverse.dropWhile (fun c => c = '0')).reverse

/-- Put a point in front of a fraction that has digits. -/
def withPoint (frac : List Char) : List Char :=
  if frac = [] then [] else '.' :: frac

/-- The exponent field of the scientific style: sign and at least two digits. -/
def exponentField (x : Int) : List Char :=
  let ds := Nat.toDigits 10 x.natAbs
  'e' :: (if x < 0 then '-' else '+') :: (if ds.length < 2 then '0' :: ds else ds)

/-- Style `%g` at precision 6 without forced point, for `n / d` with positive `n`, `d`. -/
def formatPositive (n d : Nat) : List Char :=
  let x0 := decimalExponent n d
  let m0 := mantissa n d x0
  let x := if m0 = 10 ^ 6 then x0 + 1 else x0
  let m := if m0 = 10 ^ 6 then 10 ^ 5 else m0
  let ds := Nat.toDigits 10 m
  if x < -4 ∨ 6 ≤ x then
    ds.take 1 ++ withPoint (stripZeros (ds.drop 1)) ++ exponentField x
  else if 0 ≤ x then
    ds.take (x.toNat + 1) ++ withPoint (stripZeros (ds.drop (x.toNat + 1)))
  else
    '0' :: '.' :: (List.replicate ((-x).toNat - 1) '0' ++ stripZeros ds)

/-- Default stream formatting of a value. -/
def formatDouble (value : ℚ) : List Char :=
  if value = 0 then ['0']
  else if value < 0 then '-' :: formatPositive value.num.natAbs value.den
  else formatPositive value.num.natAbs value.den

/-! ## `getadjustment`

The configuration file is the list of its characters, or `none` when `fopen`
fails. `fscanf` is the library's; its model follows the C standard for the one
format string of line 143, on decimal numerals. Where the behaviour of the C
program is not fixed by the model the result says so: a token that does not fit
its 1024-byte buffer (`overrun`), a numeral spelt in a way the model does not
cover (`unmodelled`: hexadecimal, infinity, NaN, or an exponent mark without
digits). -/

/-- What a run of the loader comes to. -/
inductive Outcome (α : Type) where
  | done (a : α)
  | overrun
  | unmodelled
  | fuel
deriving DecidableEq

/-- The result of one conversion directive: a value and the unread input, or a
failure with the unread input. -/
inductive Conv (α : Type) where
  | assigned (v : α) (rest : List Char)
  | failure (rest : List Char)
  | unmodelled
deriving DecidableEq

/-- The local variables of `getadjustment` that `fscanf` assigns. -/
structure Locals where
  attr : List Char
  command : List Char
  low : ℚ
  high : ℚ
  step : ℚ
  initial : ℚ
deriving DecidableEq

/-- The stream `f`: the characters not yet read and the end-of-file indicator. -/
structure FILE where
  unread : List Char
  eof : Bool
deriving DecidableEq

/-- `isspace` in the C locale. -/
def isspace (c : Char) : Bool :=
  c = ' ' ∨ c = '\t' ∨ c = '\n' ∨ c = '\x0b' ∨ c = '\x0c' ∨ c = '\r'

/-- `isdigit`. -/
def isdigit (c : Char) : Bool := '0' ≤ c ∧ c ≤ '9'

/-- Membership in the scan set `[-a-zA-Z0-9%/ _><]`. -/
def inScanset (c : Char) : Bool :=
  c = '-' ∨ ('a' ≤ c ∧ c ≤ 'z') ∨ ('A' ≤ c ∧ c ≤ 'Z') ∨ ('0' ≤ c ∧ c ≤ '9') ∨
    c = '%' ∨ c = '/' ∨ c = ' ' ∨ c = '_' ∨ c = '>' ∨ c = '<'

/-- The size of the buffers `attribute` and `command`. -/
def BUFSIZE : Nat := 1024

/-- A character buffer read as a C string: up to the first NUL. -/
def cstr (buf : List Char) : List Char := buf.takeWhile (fun c => c ≠ '\x00')

/-- A whitespace directive, and the skip that opens `%s` and `%lf`. -/
def skipSpace (s : List Char) : List Char := s.dropWhile isspace

/-- The number written by a string of decimal digits. -/
def natOfDigits (ds : List Char) : Nat :=
  ds.foldl (fun n c => 10 * n + (c.toNat - 48)) 0

/-- An optional sign: whether it is `-`, and the input after it. -/
def scanSign (s : List Char) : Bool × List Char :=
  match s with
  | [] => (false, [])
  | c :: r => if c = '-' then (true, r) else if c = '+' then (false, r) else (false, c :: r)

/-- The value of a decimal numeral: sign, digits before and after the point,
sign and digits of the exponent. -/
def decimalValue (neg : Bool) (whole frac : List Char) (eneg : Bool) (ex : List Char) : ℚ :=
  let m : Int := if neg then - (natOfDigits (whole ++ frac) : Int) else natOfDigits (whole ++ frac)
  if eneg then mkRat m (10 ^ (frac.length + natOfDigits ex))
  else mkRat (m * 10 ^ natOfDigits ex) (10 ^ frac.length)

/-- Whether the input, past its sign, opens a spelling the model leaves out:
`0x`, `inf` or `nan`, in either case of letters. -/
def outsideDecimal (s : List Char) : Bool :=
  match s with
  | [] => false
  | c :: r =>
    if c = 'i' ∨ c = 'I' ∨ c = 'n' ∨ c = 'N' then true
    else if c = '0' then
      match r with
      | [] => false
      | x :: _ => x = 'x' ∨ x = 'X'
    else false

/-- The point and the digits after it, when the input opens with a point. -/
def scanFraction (s : List Char) : List Char × List Char :=
  match s with
  | [] => ([], [])
  | c :: r => if c = '.' then (r.takeWhile isdigit, r.dropWhile isdigit) else ([], c :: r)

/-- The directive `%lf` past its leading whitespace: the longest run of input that
begins a decimal numeral is read, and converts when it is a numeral. -/
def scanDouble (s : List Char) : Conv ℚ :=
  let neg := (scanSign s).1
  let s := (scanSign s).2
  if outsideDecimal s then Conv.unmodelled
  else
    let whole := s.takeWhile isdigit
    let frac := (scanFraction (s.dropWhile isdigit)).1
    let s := (scanFraction (s.dropWhile isdigit)).2
    if whole = [] ∧ frac = [] then Conv.failure s
    else
      match s with
      | [] => Conv.assigned (decimalValue neg whole frac false []) []
      | c :: r =>
        if c = 'e' ∨ c = 'E' then
          let eneg := (scanSign r).1
          let r := (scanSign r).2
          if r.takeWhile isdigit = [] then Conv.unmodelled
          else Conv.assigned (decimalValue neg whole frac eneg (r.takeWhile isdigit))
            (r.dropWhile isdigit)
        else Conv.assigned (decimalValue neg whole frac false []) (c :: r)

/-- The directive `%lf`. -/
def scanLf (s : List Char) : Conv ℚ :=
  scanDouble (skipSpace s)

/-- The directive `%s`: skip whitespace, then read up to the next whitespace. At
the end of the input it fails. -/
def scanS (s : List Char) : Conv (List Char) :=
  let s := skipSpace s
  if s = [] then Conv.failure []
  else Conv.assigned (s.takeWhile (fun c => !isspace c)) (s.dropWhile (fun c => !isspace c))

/-- The directive `%[-a-zA-Z0-9%/ _><]`: read the characters of the scan set, at
least one. -/
def scanSet (s : List Char) : Conv (List Char) :=
  if s.takeWhile inScanset = [] then Conv.failure s
  else Conv.assigned (s.takeWhile inScanset) (s.dropWhile inScanset)

/-- The call `fscanf(f, "%s%lf%lf%lf%lf\r%[-a-zA-Z0-9%/ _><]", ...)` on the unread
input: the returned count (`-1` for `EOF`), the locals after the assignments made,
and the input left unread. -/
def fscanfOn (s : List Char) (l : Locals) : Outcome (Int × Locals × List Char) :=
  match scanS s with
  | Conv.unmodelled => Outcome.unmodelled
  | Conv.failure s => Outcome.done (-1, l, s)
  | Conv.assigned attr s =>
    if BUFSIZE ≤ attr.length then Outcome.overrun
    else
      let l := { l with attr := attr }
      match scanLf s with
      | Conv.unmodelled => Outcome.unmodelled
      | Conv.failure s => Outcome.done (1, l, s)
      | Conv.assigned low s =>
        let l := { l with low := low }
        match scanLf s with
        | Conv.unmodelled => Outcome.unmodelled
        | Conv.failure s => Outcome.done (2, l, s)
        | Conv.assigned high s =>
          let l := { l with high := high }
          match scanLf s with
          | Conv.unmodelled => Outcome.unmodelled
          | Conv.failure s => Outcome.done (3, l, s)
          | Conv.assigned step s =>
            let l := { l with step := step }
            match scanLf s with
            | Conv.unmodelled => Outcome.unmodelled
            | Conv.failure s => Outcome.done (4, l, s)
            | Conv.assigned initial s =>
              let l := { l with initial := initial }
              match scanSet (skipSpace s) with
              | Conv.unmodelled => Outcome.unmodelled
              | Conv.failure s => Outcome.done (5, l, s)
              | Conv.assigned command s =>
                if BUFSIZE ≤ command.length then Outcome.overrun
                else Outcome.done (6, { l with command := command }, s)

/-- The call of `fscanf` on the stream. Every directive of the format stops at a
character it cannot use or at the end of the file, so the end-of-file indicator is
set exactly when nothing is left unread. -/
def fscanf (f : FILE) (l : Locals) : Outcome (Int × Locals × FILE) :=
  match fscanfOn f.unread l with
  | Outcome.done (fieldsread, l, s) => Outcome.done (fieldsread, l, { unread := s, eof := s.isEmpty })
  | Outcome.overrun => Outcome.overrun
  | Outcome.unmodelled => Outcome.unmodelled
  | Outcome.fuel => Outcome.fuel

/-- The loop `while (!feof(f))` of lines 140-155, for at most `fuel` tests of its
condition: the tuple of the `return true`, or `none` when the loop is left. -/
def scanLoop (_attribute : List Char) : Nat → FILE → Locals → Outcome (Option adjustment)
  | 0, _, _ => Outcome.fuel
  | fuel + 1, f, l =>
    if f.eof then Outcome.done none
    else
      match fscanf f l with
      | Outcome.done (fieldsread, l, f) =>
        if fieldsread = 6 ∧ _attribute = cstr l.attr then
          Outcome.done (some
            { name := cstr l.attr, low := l.low, high := l.high, step := l.step,
              initial := l.initial, command := cstr l.command })
        else scanLoop _attribute fuel f l
      | Outcome.overrun => Outcome.overrun
      | Outcome.unmodelled => Outcome.unmodelled
      | Outcome.fuel => Outcome.fuel

/-- The function `getadjustment`: the returned flag and the caller's `_adjustment`
afterwards. `file` is the content of the configuration file, `garbage` the indeterminate
first content of the local variables. -/
def getadjustment (garbage : Locals) (file : Option (List Char)) (_attribute : List Char)
    (_adjustment : adjustment) : Outcome (Bool × adjustment) :=
  match file with
  | none => Outcome.done (false, _adjustment)
  | some text =>
    match scanLoop _attribute (text.length + 2) { unread := text, eof := false } garbage with
    | Outcome.done (some found) => Outcome.done (true, found)
    | Outcome.done none => Outcome.done (false, _adjustment)
    | Outcome.overrun => Outcome.overrun
    | Outcome.unmodelled => Outcome.unmodelled
    | Outcome.fuel => Outcome.fuel

/-! ## The layout of a configuration text

The records of a configuration text as the specification describes them: a line
`<name> <low> <high> <step> <initial>` and a command line. -/

/-- A number in plain decimal notation: an optional `-`, digits, and optionally a
point followed by digits. -/
structure Numeral where
  neg : Bool
  whole : List Char
  frac : List Char
deriving DecidableEq

/-- The numeral as written. -/
def Numeral.text (n : Numeral) : List Char :=
  (if n.neg then ['-'] else []) ++ (n.whole ++ (if n.frac = [] then [] else '.' :: n.frac))

/-- The number the numeral writes. -/
def Numeral.value (n : Numeral) : ℚ :=
  (if n.neg then -1 else 1) * (natOfDigits (n.whole ++ n.frac) : ℚ) / 10 ^ n.frac.length

/-- Digits only, at least one before the point. -/
def Numeral.wellFormed (n : Numeral) : Bool :=
  !n.whole.isEmpty && n.whole.all isdigit && n.frac.all isdigit

/-- One record: the name, the four numbers, and the command line as `indent` spaces
followed by `command`. -/
structure Entry where
  name : List Char
  low : Numeral
  high : Numeral
  step : Numeral
  initial : Numeral
  indent : Nat
  command : List Char
deriving DecidableEq

/-- The two lines of the record as written. -/
def Entry.text (e : Entry) : List Char :=
  e.name ++ (' ' :: (e.low.text ++ (' ' :: (e.high.text ++ (' ' :: (e.step.text ++
    (' ' :: (e.initial.text ++ ('\n' :: (List.replicate e.indent ' ' ++
      (e.command ++ ['\n'])))))))))))

/-- A name without whitespace or NUL; numbers in decimal notation; a command made of
the characters of the scan set that begins with a character other than a space; name
and command short enough for their buffers. -/
def Entry.wellFormed (e : Entry) : Bool :=
  !e.name.isEmpty && e.name.all (fun c => !isspace c && decide (c ≠ '\x00')) &&
    decide (e.name.length < BUFSIZE) &&
    e.low.wellFormed && e.high.wellFormed && e.step.wellFormed && e.initial.wellFormed &&
    !e.command.isEmpty && e.command.all inScanset && decide (e.command.head? ≠ some ' ') &&
    decide (e.command.length < BUFSIZE)

/-- The tuple the record stands for. -/
def Entry.adjustment (e : Entry) : adjustment :=
  { name := e.name, low := e.low.value, high := e.high.value, step := e.step.value,
    initial := e.initial.value, command := e.command }

/-- The text of a sequence of records. -/
def configText : List Entry → List Char
  | [] => []
  | e :: es => e.text ++ configText es

/-! ## Example adjustments -/

/-- The adjustment of the clamping counterexample: range 0 to 10, step 1, started at 100. -/
def startsAbove : adjustment :=
  { name := "gamma".toList, low := 0, high := 10, step := 1, initial := 100,
    command := "xgamma -gamma %".toList }

/-- The adjustment of the brightness example. -/
def brightness : adjustment :=
  { name := "brightness".toList, low := 15, high := 95, step := 5, initial := 20,
    command := "echo % > /sys/class/backlight/nvidia_0/brightness".toList }

/-! ## The example configuration -/

/-- The four lines of the example `~/.adjustments` of the file header. -/
def exampleConfig : List Char :=
  ("gamma 0.1 0.9 0.1 0.5\nxgamma -gamma %\n" ++
    "brightness 15 95 5 20\necho % > /sys/class/backlight/nvidia_0/brightness\n").toList

/-- The first record of the example. -/
def gammaEntry : Entry :=
  { name := "gamma".toList
    low := { neg := false, whole := ['0'], frac := ['1'] }
    high := { neg := false, whole := ['0'], frac := ['9'] }
    step := { neg := false, whole := ['0'], frac := ['1'] }
    initial := { neg := false, whole := ['0'], frac := ['5'] }
    indent := 0
    command := "xgamma -gamma %".toList }

/-- The second record of the example. -/
def brightnessEntry : Entry :=
  { name := "brightness".toList
    low := { neg := false, whole := ['1', '5'], frac := [] }
    high := { neg := false, whole := ['9', '5'], frac := [] }
    step := { neg := false, whole := ['5'], frac := [] }
    initial := { neg := false, whole := ['2', '0'], frac := [] }
    indent := 0
    command := "echo % > /sys/class/backlight/nvidia_0/brightness".toList }

/-- A first content of the local variables, for the runs on concrete texts. -/
def noLocals : Locals :=
  { attr := [], command := [], low := 0, high := 0, step := 0, initial := 0 }

/-! ## Further key codes -/

/-- The key code of `#define UP 'A'`. -/
def UP : Nat := 65

/-- The key code of `#define DOWN 'B'`. -/
def DOWN : Nat := 66

/-! ## The loader with the conversion `%lf` left open

The termination of the scan loop and the exit code of `main` do not depend on how
the library converts a number. Here the directive `%lf` is a parameter `lf`, as the
formatter of a value is a parameter of `adjust`; `scanLf` above is one such `lf`. -/

/-- What every implementation of `%lf` does: it reads from the front of the input, so
that what it leaves unread is no longer than what it was given. -/
def Consuming (lf : List Char → Conv ℚ) : Prop :=
  ∀ s : List Char,
    match lf s with
    | Conv.assigned _ rest => rest.length ≤ s.length
    | Conv.failure rest => rest.length ≤ s.length
    | Conv.unmodelled => True

/-- The call of `fscanf` of line 143 on the unread input, with `lf` for `%lf`. -/
def fscanfWith (lf : List Char → Conv ℚ) (s : List Char) (l : Locals) :
    Outcome (Int × Locals × List Char) :=
  match scanS s with
  | Conv.unmodelled => Outcome.unmodelled
  | Conv.failure s => Outcome.done (-1, l, s)
  | Conv.assigned attr s =>
    if BUFSIZE ≤ attr.length then Outcome.overrun
    else
      let l := { l with attr := attr }
      match lf s with
      | Conv.unmodelled => Outcome.unmodelled
      | Conv.failure s => Outcome.done (1, l, s)
      | Conv.assigned low s =>
        let l := { l with low := low }
        match lf s with
        | Conv.unmodelled => Outcome.unmodelled
        | Conv.failure s => Outcome.done (2, l, s)
        | Conv.assigned high s =>
          let l := { l with high := high }
          match lf s with
          | Conv.unmodelled => Outcome.unmodelled
          | Conv.failure s => Outcome.done (3, l, s)
          | Conv.assigned step s =>
            let l := { l with step := step }
            match lf s with
            | Conv.unmodelled => Outcome.unmodelled
            | Conv.failure s => Outcome.done (4, l, s)
            | Conv.assigned initial s =>
              let l := { l with initial := initial }
              match scanSet (skipSpace s) with
              | Conv.unmodelled => Outcome.unmodelled
              | Conv.failure s => Outcome.done (5, l, s)
              | Conv.assigned command s =>
                if BUFSIZE ≤ command.length then Outcome.overrun
                else Outcome.done (6, { l with command := command }, s)

/-- The loop `while (!feof(f))` of lines 140-155 with `lf` for `%lf`, for at most
`fuel` tests of its condition. -/
def scanLoopWith (lf : List Char → Conv ℚ) (_attribute : List Char) :
    Nat → FILE → Locals → Outcome (Option adjustment)
  | 0, _, _ => Outcome.fuel
  | fuel + 1, f, l =>
    if f.eof then Outcome.done none
    else
      match fscanfWith lf f.unread l with
      | Outcome.done (fieldsread, l, s) =>
        if fieldsread = 6 ∧ _attribute = cstr l.attr then
          Outcome.done (some
            { name := cstr l.attr, low := l.low, high := l.high, step := l.step,
              initial := l.initial, command := cstr l.command })
        else scanLoopWith lf _attribute fuel { unread := s, eof := s.isEmpty } l
      | Outcome.overrun => Outcome.overrun
      | Outcome.unmodelled => Outcome.unmodelled
      | Outcome.fuel => Outcome.fuel

/-- The function `getadjustment` with `lf` for `%lf`. -/
def getadjustmentWith (lf : List Char → Conv ℚ) (garbage : Locals) (file : Option (List Char))
    (_attribute : List Char) (_adjustment : adjustment) : Outcome (Bool × adjustment) :=
  match file with
  | none => Outcome.done (false, _adjustment)
  | some text =>
    match scanLoopWith lf _attribute (text.length + 2) { unread := text, eof := false }
      garbage with
    | Outcome.done (some found) => Outcome.done (true, found)
    | Outcome.done none => Outcome.done (false, _adjustment)
    | Outcome.overrun => Outcome.overrun
    | Outcome.unmodelled => Outcome.unmodelled
    | Outcome.fuel => Outcome.fuel

/-! ## A record up to the end of its command -/

/-- The two lines of the record as written, without the line end of the command line. -/
def Entry.written (e : Entry) : List Char :=
  e.name ++ (' ' :: (e.low.text ++ (' ' :: (e.high.text ++ (' ' :: (e.step.text ++
    (' ' :: (e.initial.text ++ ('\n' :: (List.replicate e.indent ' ' ++ e.command))))))))))

/-- A text whose one token is longer than the buffer it is read into. -/
def longToken : List Char := List.replicate 4096 'a'

/-- A text that is not well formed: a record cut short after its third field, and a
record whose command line is made of characters outside the scan set. -/
def tornConfig : List Char :=
  "gamma 0.1 0.9\nxgamma -gamma %\nbrightness 15 95 5 20\n!!\n".toList

/-- A `double`. -/
inductive Dbl where
  | ninf
  | fin (q : ℚ)
  | pinf
  | nan
deriving DecidableEq

/-- The comparison `a < b`: false when either side is a NaN. -/
def Dbl.lt (a b : Dbl) : Bool :=
  match a with
  | Dbl.nan => false
  | Dbl.pinf => false
  | Dbl.ninf =>
    match b with
    | Dbl.fin _ => true
    | Dbl.pinf => true
    | _ => false
  | Dbl.fin x =>
    match b with
    | Dbl.fin y => decide (x < y)
    | Dbl.pinf => true
    | _ => false

/-- The comparison `a <= b`: false when either side is a NaN. -/
def Dbl.le (a b : Dbl) : Bool :=
  match a with
  | Dbl.nan => false
  | Dbl.ninf =>
    match b with
    | Dbl.nan => false
    | _ => true
  | Dbl.pinf =>
    match b with
    | Dbl.pinf => true
    | _ => false
  | Dbl.fin x =>
    match b with
    | Dbl.fin y => decide (x ≤ y)
    | Dbl.pinf => true
    | _ => false

/-- The value `-a`. -/
def Dbl.neg (a : Dbl) : Dbl :=
  match a with
  | Dbl.ninf => Dbl.pinf
  | Dbl.fin x => Dbl.fin (-x)
  | Dbl.pinf => Dbl.ninf
  | Dbl.nan => Dbl.nan

/-- The sum `a + b`: a NaN when either is, or when they are infinities of opposite
sign; the rounded sum when both are finite. -/
def Dbl.add (rnd : ℚ → Dbl) (a b : Dbl) : Dbl :=
  match a with
  | Dbl.nan => Dbl.nan
  | Dbl.fin x =>
    match b with
    | Dbl.fin y => rnd (x + y)
    | other => other
  | Dbl.pinf =>
    match b with
    | Dbl.nan => Dbl.nan
    | Dbl.ninf => Dbl.nan
    | _ => Dbl.pinf
  | Dbl.ninf =>
    match b with
    | Dbl.nan => Dbl.nan
    | Dbl.pinf => Dbl.nan
    | _ => Dbl.ninf

/-- The difference `a - b`, which is `a + (-b)`. -/
def Dbl.sub (rnd : ℚ → Dbl) (a b : Dbl) : Dbl :=
  Dbl.add rnd a (Dbl.neg b)

/-- What is used of the rounding of a sum: it gives no NaN, it keeps the order, and it
leaves its own results as they are. -/
structure Rounding (rnd : ℚ → Dbl) : Prop where
  noNan : ∀ q : ℚ, rnd q ≠ Dbl.nan
  ordered : ∀ p q : ℚ, p ≤ q → Dbl.le (rnd p) (rnd q) = true
  settled : ∀ p q : ℚ, rnd p = Dbl.fin q → rnd q = Dbl.fin q

/-- A value that a variable of type `double` can hold: a finite value that rounding
leaves as it is, an infinity, or a NaN. -/
def Dbl.Held (rnd : ℚ → Dbl) (a : Dbl) : Prop :=
  match a with
  | Dbl.fin q => rnd q = Dbl.fin q
  | _ => True

/-- The tuple `adjustment` with `double` fields. -/
structure adjustmentD where
  name : List Char
  low : Dbl
  high : Dbl
  step : Dbl
  initial : Dbl
  command : List Char
deriving DecidableEq

/-- `std::max(a, b)`: `(a < b) ? b : a`. -/
def std_maxD (a b : Dbl) : Dbl := if Dbl.lt a b = true then b else a

/-- `std::min(a, b)`: `(b < a) ? b : a`. -/
def std_minD (a b : Dbl) : Dbl := if Dbl.lt b a = true then b else a

/-- Lines 101-105 on `double` values. -/
def adjustValueD (rnd : ℚ → Dbl) (a : adjustmentD) (key : Nat) (value : Dbl) : Dbl :=
  let value := if key = LEFT then std_maxD (Dbl.sub rnd value a.step) a.low else value
  if key = RIGHT then std_minD (Dbl.add rnd value a.step) a.high else value

/-- Lines 107-116 with the formatter of a `double`. -/
def buildCommandD (fmt : Dbl → List Char) (command : List Char) (value : Dbl) : List Char :=
  let output : List Char := []
  let output := std_copy command 0 (std_find command '%') output
  let output := output ++ fmt value
  let output := std_copy command (std_find command '%' + 1) command.length output
  output ++ suffix

/-- What the loop has done so far and, at the end, returns. -/
structure SessionD where
  value : Dbl
  commands : List (List Char)
  echoes : List (List Char × Dbl)
deriving DecidableEq

/-- One pass through the statements after the two early exits. -/
def runBodyD (rnd : ℚ → Dbl) (fmt : Dbl → List Char) (a : adjustmentD) (key : Nat)
    (s : SessionD) : SessionD :=
  let value := adjustValueD rnd a key s.value
  { value := value
    commands := s.commands ++ [buildCommandD fmt a.command value]
    echoes := s.echoes ++ [(a.name, value)] }

/-- The `do ... while` loop of lines 88-124, entered at the top of its body. -/
def doWhileD (rnd : ℚ → Dbl) (fmt : Dbl → List Char) (a : adjustmentD) :
    List Nat → Nat → SessionD → SessionD
  | stdin, key, s =>
    if key = QUIT then s
    else if key = ESC then
      match stdin with
      | [] => s
      | [_] => s
      | _ :: key :: stdin => doWhileD rnd fmt a stdin key s
    else
      match stdin with
      | [] => runBodyD rnd fmt a key s
      | key1 :: stdin => doWhileD rnd fmt a stdin key1 (runBodyD rnd fmt a key s)

/-- The function `adjust` on `double` values. -/
def adjustD (rnd : ℚ → Dbl) (fmt : Dbl → List Char) (a : adjustmentD) (stdin : List Nat) :
    SessionD :=
  doWhileD rnd fmt a stdin 0 { value := a.initial, commands := [], echoes := [] }

/-- The loop test: read a key, leave at end of input. -/
def whileCondD (rnd : ℚ → Dbl) (fmt : Dbl → List Char) (a : adjustmentD) (stdin : List Nat)
    (s : SessionD) : SessionD :=
  match stdin with
  | [] => s
  | key :: stdin => doWhileD rnd fmt a stdin key s

/-- The values between `low` and `high`, by the comparisons of the program. -/
def inRangeD (a : adjustmentD) (v : Dbl) : Prop :=
  Dbl.le a.low v = true ∧ Dbl.le v a.high = true

/-- A formatter of `double` values: the finite ones as `formatDouble` writes them. -/
def showD (v : Dbl) : List Char :=
  match v with
  | Dbl.fin q => formatDouble q
  | Dbl.pinf => "inf".toList
  | Dbl.ninf => "-inf".toList
  | Dbl.nan => "nan".toList

/-- The tuple of an adjustment as `double` values. -/
def adjustment.toD (a : adjustment) : adjustmentD :=
  { name := a.name, low := Dbl.fin a.low, high := Dbl.fin a.high, step := Dbl.fin a.step,
    initial := Dbl.fin a.initial, command := a.command }

/-- An adjustment without upper bound, as the record `x 0 inf inf 0` gives it. -/
def unboundedD : adjustmentD :=
  { name := "x".toList, low := Dbl.fin 0, high := Dbl.pinf, step := Dbl.pinf,
    initial := Dbl.fin 0, command := "echo %".toList }

/-- An adjustment whose numbers are all infinite, as the record `x inf inf inf inf`
gives it. -/
def infiniteD : adjustmentD :=
  { name := "x".toList, low := Dbl.pinf, high := Dbl.pinf, step := Dbl.pinf,
    initial := Dbl.pinf, command := "echo %".toList }

/-! ## The program from its arguments to its exit code

The function `main` with what it meets outside the program: a terminal that
`initscr` may fail to open, a configuration file that may be missing or whose reads
may fail, and the call of `printf` of line 236, which passes a `std::string` where
`%s` takes a `char *`. -/

/-- What `main` meets outside the program. `terminal` tells whether `initscr` can
open the terminal; when it cannot, `initscr` writes a message to standard error and
ends the program with `exit(EXIT_FAILURE)`, which is exit code 1. `line236` is what
the call `printf("%s\r", std::string(cols, ' '))` writes where an implementation gives
the call a meaning, and `none` where it gives it none. -/
structure Env where
  terminal : Bool
  line236 : Option (List Char)
deriving DecidableEq

/-- The file `/home/jonathan/.adjustments` as `fopen` and the reads find it: absent,
so that `fopen` returns a null pointer; a text that is read to its end; or a stream
whose reads deliver a text and then fail with a read error, as those of a directory
do, which sets the error indicator of the stream and never its end-of-file
indicator. -/
inductive Source where
  | absent
  | text (t : List Char)
  | failing (t : List Char)
deriving DecidableEq

/-- The loop `while (!feof(f))` of lines 140-155 on a stream whose reads fail after the
characters given, for at most `fuel` tests of its condition: `feof(f)` is false at
every test, and a call of `fscanf` that meets the read error returns as it does at
the end of a text. -/
def scanLoopFailing (lf : List Char → Conv ℚ) (_attribute : List Char) :
    Nat → List Char → Locals → Outcome adjustment
  | 0, _, _ => Outcome.fuel
  | fuel + 1, s, l =>
    match fscanfWith lf s l with
    | Outcome.done (fieldsread, l, s) =>
      if fieldsread = 6 ∧ _attribute = cstr l.attr then
        Outcome.done
          { name := cstr l.attr, low := l.low, high := l.high, step := l.step,
            initial := l.initial, command := cstr l.command }
      else scanLoopFailing lf _attribute fuel s l
    | Outcome.overrun => Outcome.overrun
    | Outcome.unmodelled => Outcome.unmodelled
    | Outcome.fuel => Outcome.fuel

/-- The function `getadjustment` on the file as it is found. On a failing stream the
loop can only be left by the `return true` of line 153; `Outcome.fuel` says that it
was not left within `t.length + 2` tests. -/
def getadjustmentFrom (lf : List Char → Conv ℚ) (garbage : Locals) (source : Source)
    (_attribute : List Char) (_adjustment : adjustment) : Outcome (Bool × adjustment) :=
  match source with
  | Source.absent => getadjustmentWith lf garbage none _attribute _adjustment
  | Source.text t => getadjustmentWith lf garbage (some t) _attribute _adjustment
  | Source.failing t =>
    match scanLoopFailing lf _attribute (t.length + 2) t garbage with
    | Outcome.done found => Outcome.done (true, found)
    | Outcome.overrun => Outcome.overrun
    | Outcome.unmodelled => Outcome.unmodelled
    | Outcome.fuel => Outcome.fuel

/-- The default-constructed tuple `adjustment _adjustment;` of line 228. -/
def emptyAdjustment : adjustment :=
  { name := [], low := 0, high := 0, step := 0, initial := 0, command := [] }

/-- What a run of `main` does, in order. -/
inductive Event where
  | usage
  | initscr
  | cbreak
  | lookup (_attribute : List Char)
  | adjust (session : SessionD)
  | printf (text : List Char)
  | endwin
deriving DecidableEq

/-- A run of the program that ends: its exit code and what it did. -/
structure Run where
  code : Int
  events : List Event
deriving DecidableEq

/-- The function `main`: `argv` holds the program name and the arguments, and `argc`
is its length. The values read from the file are finite; `adjust` computes on them as
`double` values. -/
def main (lf : List Char → Conv ℚ) (rnd : ℚ → Dbl) (fmt : Dbl → List Char)
    (garbage : Locals) (env : Env) (argv : List (List Char)) (source : Source)
    (stdin : List Nat) : Outcome Run :=
  let argc := argv.length
  if argc ≠ 2 then
    Outcome.done { code := 1, events := [Event.usage] }
  else if env.terminal = false then
    Outcome.done { code := 1, events := [Event.initscr] }
  else
    match getadjustmentFrom lf garbage source (argv.getD 1 []) emptyAdjustment with
    | Outcome.done (found, _adjustment) =>
      match env.line236 with
      | none => Outcome.unmodelled
      | some text =>
        Outcome.done
          { code := 0
            events :=
              [Event.initscr, Event.cbreak, Event.lookup (argv.getD 1 [])] ++
                (if found then [Event.adjust (adjustD rnd fmt _adjustment.toD stdin)]
                  else []) ++
                [Event.printf text, Event.endwin] }
    | Outcome.overrun => Outcome.overrun
    | Outcome.unmodelled => Outcome.unmodelled
    | Outcome.fuel => Outcome.fuel

/-- A terminal that opens, on which line 236 writes nothing. -/
def plainEnv : Env := { terminal := true, line236 := some [] }

theorem std_find_append (pre post : List Char) (c : Char) (h : c ∉ pre) :
    std_find (pre ++ c :: post) c = pre.length := by
  induction pre with
  | nil => simp [std_find]
  | cons x xs ih =>
    have hx : x ≠ c := fun e => h (by simp [e])
    have hxs : c ∉ xs := fun e => h (by simp [e])
    simp [std_find, hx, ih hxs]

theorem std_find_absent (s : List Char) (c : Char) (h : c ∉ s) :
    std_find s c = s.length := by
  induction s with
  | nil => simp [std_find]
  | cons x xs ih =>
    have hx : x ≠ c := fun e => h (by simp [e])
    have hxs : c ∉ xs := fun e => h (by simp [e])
    simp [std_find, hx, ih hxs]

theorem doWhile_eq (fmt : ℚ → List Char) (a : adjustment) (stdin : List Nat) (key : Nat)
    (s : Session) :
    doWhile fmt a stdin key s =
      if key = QUIT then s
      else if key = ESC then whileCond fmt a stdin.tail s
      else whileCond fmt a stdin (runBody fmt a key s) := by
  cases stdin with
  | nil => simp [doWhile, whileCond]
  | cons k rest =>
    cases rest with
    | nil => simp [doWhile, whileCond]
    | cons k2 rest2 => simp [doWhile, whileCond]

theorem whileCond_cons (fmt : ℚ → List Char) (a : adjustment) (key : Nat) (stdin : List Nat)
    (s : Session) :
    whileCond fmt a (key :: stdin) s =
      if key = QUIT then s
      else if key = ESC then whileCond fmt a stdin.tail s
      else whileCond fmt a stdin (runBody fmt a key s) := by
  rw [whileCond, doWhile_eq]

theorem adjust_eq (fmt : ℚ → List Char) (a : adjustment) (stdin : List Nat) :
    adjust fmt a stdin =
      whileCond fmt a stdin
        (runBody fmt a 0 { value := a.initial, commands := [], echoes := [] }) := by
  rw [adjust, doWhile_eq]
  simp [QUIT, ESC]

/-- C1. A command template split at its first `%` as `pre ++ '%' :: post` is built
into `pre`, the formatted value, `post` and the redirection suffix. -/
theorem buildCommand_placeholder (fmt : ℚ → List Char) (command pre post : List Char)
    (value : ℚ) (hsplit : command = pre ++ '%' :: post) (hfirst : '%' ∉ pre) :
    buildCommand fmt command value = pre ++ fmt value ++ post ++ " 2>/dev/null".toList := by
  subst hsplit
  simp [buildCommand, std_copy, std_find_append pre post '%' hfirst, suffix]
  omega

theorem formatDouble_two_fifths : formatDouble (2 / 5) = "0.4".toList := by
  have h1 : (2 / 5 : ℚ).num = 2 := by norm_num
  have h2 : (2 / 5 : ℚ).den = 5 := by norm_num
  have h3 : ¬ ((2 / 5 : ℚ) = 0) := by norm_num
  have h4 : ¬ ((2 / 5 : ℚ) < 0) := by norm_num
  simp only [formatDouble, h1, h2, h3, h4, if_false]
  decide

/-- C1, at the template of the gamma example: the command for the value 0.4 is
`xgamma -gamma 0.4 2>/dev/null`. -/
theorem buildCommand_placeholder_witness :
    '%' ∉ "xgamma -gamma ".toList ∧
      buildCommand formatDouble "xgamma -gamma %".toList (2 / 5) =
        "xgamma -gamma 0.4 2>/dev/null".toList := by
  refine ⟨by decide, ?_⟩
  have h := buildCommand_placeholder formatDouble "xgamma -gamma %".toList
    "xgamma -gamma ".toList [] (2 / 5) (by decide) (by decide)
  rw [h, formatDouble_two_fifths]
  decide

theorem buildCommand_absent (fmt : ℚ → List Char) (command : List Char) (value : ℚ)
    (h : '%' ∉ command) :
    buildCommand fmt command value = command ++ fmt value ++ suffix := by
  simp [buildCommand, std_copy, std_find_absent command '%' h]

/-- C5. For the template `ls`, which has no `%`, the value is written after the
template: the command is `ls0.4 2>/dev/null` at 0.4 and `ls0.5 2>/dev/null` at 0.5. -/
theorem buildCommand_no_placeholder_appends :
    buildCommand formatDouble "ls".toList (2 / 5) = "ls0.4 2>/dev/null".toList ∧
      buildCommand formatDouble "ls".toList (2 / 5) ≠ "ls 2>/dev/null".toList ∧
      buildCommand formatDouble "ls".toList (1 / 2) ≠
        buildCommand formatDouble "ls".toList (2 / 5) := by
  have h5 : formatDouble (1 / 2) = "0.5".toList := by
    have h1 : (1 / 2 : ℚ).num = 1 := by norm_num
    have h2 : (1 / 2 : ℚ).den = 2 := by norm_num
    have h3 : ¬ ((1 / 2 : ℚ) = 0) := by norm_num
    have h4 : ¬ ((1 / 2 : ℚ) < 0) := by norm_num
    simp only [formatDouble, h1, h2, h3, h4, if_false]
    decide
  rw [buildCommand_absent _ _ _ (by decide), buildCommand_absent _ _ _ (by decide),
    formatDouble_two_fifths, h5]
  decide

theorem std_max_eq (a b : ℚ) : std_max a b = max a b := by
  unfold std_max
  split
  · rw [max_eq_right (by linarith)]
  · rw [max_eq_left (by linarith)]

theorem std_min_eq (a b : ℚ) : std_min a b = min a b := by
  unfold std_min
  split
  · rw [min_eq_right (by linarith)]
  · rw [min_eq_left (by linarith)]

theorem adjustValue_LEFT (a : adjustment) (v : ℚ) :
    adjustValue a LEFT v = max (v - a.step) a.low := by
  simp [adjustValue, LEFT, RIGHT, std_max_eq]

theorem adjustValue_RIGHT (a : adjustment) (v : ℚ) :
    adjustValue a RIGHT v = min (v + a.step) a.high := by
  simp [adjustValue, LEFT, RIGHT, std_min_eq]

theorem adjustValue_other (a : adjustment) (key : Nat) (v : ℚ) (hl : key ≠ LEFT)
    (hr : key ≠ RIGHT) : adjustValue a key v = v := by
  simp [adjustValue, hl, hr]

/-- C3. Read at the loop test, the bytes ESC `[` `C` (`[` is byte 91) leave the value at
`min (v + step) high` and the bytes ESC `[` `D` leave it at `max (v - step) low`;
either sequence adds one command, built from the new value, and the loop goes on
with the rest of the input. -/
theorem cursor_keys (fmt : ℚ → List Char) (a : adjustment) (s : Session) (ks : List Nat) :
    whileCond fmt a (ESC :: 91 :: RIGHT :: ks) s =
        whileCond fmt a ks
          { value := min (s.value + a.step) a.high
            commands := s.commands ++ [buildCommand fmt a.command (min (s.value + a.step) a.high)]
            echoes := s.echoes ++ [(a.name, min (s.value + a.step) a.high)] } ∧
      whileCond fmt a (ESC :: 91 :: LEFT :: ks) s =
        whileCond fmt a ks
          { value := max (s.value - a.step) a.low
            commands := s.commands ++ [buildCommand fmt a.command (max (s.value - a.step) a.low)]
            echoes := s.echoes ++ [(a.name, max (s.value - a.step) a.low)] } := by
  have hq : ¬ (ESC = QUIT) := by decide
  have he : ESC = ESC := rfl
  constructor
  · rw [whileCond_cons, if_neg hq, if_pos he, List.tail_cons, whileCond_cons,
      if_neg (by decide), if_neg (by decide), runBody, adjustValue_RIGHT]
  · rw [whileCond_cons, if_neg hq, if_pos he, List.tail_cons, whileCond_cons,
      if_neg (by decide), if_neg (by decide), runBody, adjustValue_LEFT]

theorem swallowsNext_cons (key : Nat) (stdin : List Nat) :
    swallowsNext (key :: stdin) =
      if key = QUIT then false
      else if key = ESC then (stdin = [] ∨ swallowsNext stdin.tail = true)
      else swallowsNext stdin := by
  cases stdin with
  | nil => simp [swallowsNext]
  | cons b rest => simp [swallowsNext]

theorem whileCond_quit (fmt : ℚ → List Char) (a : adjustment) (post : List Nat) :
    ∀ (n : Nat) (pre : List Nat) (s : Session), pre.length ≤ n → swallowsNext pre = false →
      whileCond fmt a (pre ++ QUIT :: post) s = whileCond fmt a pre s := by
  intro n
  induction n with
  | zero =>
    intro pre s hn _
    have : pre = [] := List.length_eq_zero.mp (Nat.le_zero.mp hn)
    subst this
    rw [List.nil_append, whileCond_cons, if_pos rfl]
    rfl
  | succ n ih =>
    intro pre s hn hsw
    cases pre with
    | nil =>
      rw [List.nil_append, whileCond_cons, if_pos rfl]
      rfl
    | cons key rest =>
      have hrest : rest.length ≤ n := by simpa using hn
      rw [List.cons_append, whileCond_cons, whileCond_cons]
      by_cases hq : key = QUIT
      · rw [if_pos hq, if_pos hq]
      · rw [if_neg hq, if_neg hq]
        by_cases he : key = ESC
        · rw [if_pos he, if_pos he]
          rw [swallowsNext_cons, if_neg hq, if_pos he] at hsw
          cases rest with
          | nil => simp at hsw
          | cons b rest2 =>
            simp only [List.cons_append, List.tail_cons]
            exact ih rest2 s (by simp at hrest; omega) (by simpa using hsw)
        · rw [if_neg he, if_neg he]
          rw [swallowsNext_cons, if_neg hq, if_neg he] at hsw
          exact ih rest _ hrest hsw

/-- C6, as stated, fails: in the input ESC `q` right the `q` is the byte skipped after
the escape byte, so the loop goes on and runs a second command, while on the input
ESC alone it runs one. -/
theorem quit_after_escape_is_skipped :
    (adjust formatDouble brightness ([ESC] ++ [QUIT] ++ [RIGHT])).value = 25 ∧
      (adjust formatDouble brightness [ESC]).value = 20 ∧
      (adjust formatDouble brightness ([ESC] ++ [QUIT] ++ [RIGHT])).commands.length = 2 ∧
      (adjust formatDouble brightness [ESC]).commands.length = 1 := by
  refine ⟨?_, ?_, ?_, ?_⟩
  · simp [adjust, doWhile, runBody, adjustValue, brightness, LEFT, RIGHT, QUIT, ESC,
      std_max, std_min]
    norm_num
  · simp [adjust, doWhile, runBody, adjustValue, brightness, LEFT, RIGHT, QUIT, ESC,
      std_max, std_min]
  · simp [adjust, doWhile, runBody, QUIT, ESC, RIGHT]
  · simp [adjust, doWhile, runBody, QUIT, ESC]

/-- C6, amended: when the `q` is read as a key, that is, when the loop has not just
read an escape byte whose following byte it skips, the run on `pre ++ 'q' :: post`
ends at that `q` with the value, commands and echoes of the run on `pre`. -/
theorem quit_ends_loop (fmt : ℚ → List Char) (a : adjustment) (pre post : List Nat)
    (hkey : swallowsNext pre = false) :
    adjust fmt a (pre ++ QUIT :: post) = adjust fmt a pre := by
  rw [adjust_eq, adjust_eq]
  exact whileCond_quit fmt a post pre.length pre _ (le_refl _) hkey

/-- C6, amended, at the input right, `q`, left. -/
theorem quit_ends_loop_witness :
    swallowsNext [RIGHT] = false ∧
      adjust formatDouble brightness ([RIGHT] ++ QUIT :: [LEFT]) =
        adjust formatDouble brightness [RIGHT] :=
  ⟨by decide, quit_ends_loop formatDouble brightness [RIGHT] [LEFT] (by decide)⟩

theorem whileCond_append_quit (fmt : ℚ → List Char) (a : adjustment) :
    ∀ (n : Nat) (ks : List Nat) (s : Session), ks.length ≤ n →
      whileCond fmt a (ks ++ [QUIT]) s = whileCond fmt a ks s := by
  intro n
  induction n with
  | zero =>
    intro ks s hn
    have : ks = [] := List.length_eq_zero.mp (Nat.le_zero.mp hn)
    subst this
    rw [List.nil_append, whileCond_cons, if_pos rfl]
    rfl
  | succ n ih =>
    intro ks s hn
    cases ks with
    | nil =>
      rw [List.nil_append, whileCond_cons, if_pos rfl]
      rfl
    | cons key rest =>
      have hrest : rest.length ≤ n := by simpa using hn
      rw [List.cons_append, whileCond_cons, whileCond_cons]
      by_cases hq : key = QUIT
      · rw [if_pos hq, if_pos hq]
      · rw [if_neg hq, if_neg hq]
        by_cases he : key = ESC
        · rw [if_pos he, if_pos he]
          cases rest with
          | nil => simp [whileCond]
          | cons b rest2 =>
            simp only [List.cons_append, List.tail_cons]
            exact ih rest2 s (by simp at hrest; omega)
        · rw [if_neg he, if_neg he]
          exact ih rest _ hrest

/-- C7. On an input without `q`, running to the end of input gives the same value,
commands and echoes as running on the input followed by `q`. -/
theorem end_of_input_as_quit (fmt : ℚ → List Char) (a : adjustment) (ks : List Nat)
    (_hq : QUIT ∉ ks) :
    adjust fmt a ks = adjust fmt a (ks ++ [QUIT]) := by
  rw [adjust_eq, adjust_eq]
  exact (whileCond_append_quit fmt a ks.length ks _ (le_refl _)).symm

/-- C7 at the input right, right, left. -/
theorem end_of_input_as_quit_witness :
    QUIT ∉ [RIGHT, RIGHT, LEFT] ∧
      adjust formatDouble brightness [RIGHT, RIGHT, LEFT] =
        adjust formatDouble brightness ([RIGHT, RIGHT, LEFT] ++ [QUIT]) :=
  ⟨by decide, end_of_input_as_quit formatDouble brightness [RIGHT, RIGHT, LEFT] (by decide)⟩

/-- C8. Read at the loop test, the escape byte and the byte `b` after it change
neither value, commands nor echoes, and the loop goes on with the rest of the input
as if the two bytes had not been there. -/
theorem escape_pair_skipped (fmt : ℚ → List Char) (a : adjustment) (s : Session) (b : Nat)
    (ks : List Nat) :
    whileCond fmt a (ESC :: b :: ks) s = whileCond fmt a ks s := by
  rw [whileCond_cons, if_neg (by decide), if_pos rfl, List.tail_cons]

/-! ### Scanning a well-formed record -/

theorem takeWhile_stop {p : Char → Bool} (xs : List Char) (y : Char) (ys : List Char)
    (hxs : ∀ x ∈ xs, p x = true) (hy : p y = false) :
    (xs ++ y :: ys).takeWhile p = xs := by
  induction xs with
  | nil => simp [List.takeWhile, hy]
  | cons x xs ih =>
    have hx : p x = true := hxs x (by simp)
    have hrest : ∀ z ∈ xs, p z = true := fun z hz => hxs z (by simp [hz])
    simp [List.takeWhile, hx, ih hrest]

theorem dropWhile_stop {p : Char → Bool} (xs : List Char) (y : Char) (ys : List Char)
    (hxs : ∀ x ∈ xs, p x = true) (hy : p y = false) :
    (xs ++ y :: ys).dropWhile p = y :: ys := by
  induction xs with
  | nil => simp [List.dropWhile, hy]
  | cons x xs ih =>
    have hx : p x = true := hxs x (by simp)
    have hrest : ∀ z ∈ xs, p z = true := fun z hz => hxs z (by simp [hz])
    simp [List.dropWhile, hx, ih hrest]

theorem isspace_cases (c : Char) (h : isspace c = true) :
    c = ' ' ∨ c = '\t' ∨ c = '\n' ∨ c = '\x0b' ∨ c = '\x0c' ∨ c = '\r' := by
  simpa [isspace] using h

theorem isspace_not_numeral (c : Char) (h : isspace c = true) :
    isdigit c = false ∧ c ≠ '.' ∧ c ≠ 'e' ∧ c ≠ 'E' := by
  rcases isspace_cases c h with h | h | h | h | h | h <;> subst h <;> decide

theorem isdigit_bounds (c : Char) (h : isdigit c = true) : 48 ≤ c.toNat ∧ c.toNat ≤ 57 := by
  simp only [isdigit, decide_eq_true_eq] at h
  obtain ⟨h1, h2⟩ := h
  have h1 : ('0' : Char).toNat ≤ c.toNat := h1
  have h2 : c.toNat ≤ ('9' : Char).toNat := h2
  exact ⟨h1, h2⟩

theorem isdigit_ne (c d : Char) (h : isdigit c = true) (hd : d.toNat < 48 ∨ 57 < d.toNat) :
    c ≠ d := by
  intro e
  subst e
  have := isdigit_bounds c h
  omega

theorem isdigit_not_space (c : Char) (h : isdigit c = true) : isspace c = false := by
  have hb := isdigit_bounds c h
  by_contra hs
  have hs : isspace c = true := by simpa using hs
  rcases isspace_cases c hs with h | h | h | h | h | h <;> subst h <;> simp at hb

theorem decimalValue_plain (neg : Bool) (whole frac : List Char) :
    decimalValue neg whole frac false [] =
      (if neg then -1 else 1) * (natOfDigits (whole ++ frac) : ℚ) / 10 ^ frac.length := by
  cases neg <;> simp [decimalValue, natOfDigits, Rat.mkRat_eq_div]

theorem scanSign_digit (d : Char) (r : List Char) (hd : isdigit d = true) :
    scanSign (d :: r) = (false, d :: r) := by
  have h1 : d ≠ '-' := isdigit_ne d '-' hd (by decide)
  have h2 : d ≠ '+' := isdigit_ne d '+' hd (by decide)
  simp [scanSign, h1, h2]

theorem outsideDecimal_digits (d x : Char) (r : List Char) (hd : isdigit d = true)
    (hx : x ≠ 'x' ∧ x ≠ 'X') : outsideDecimal (d :: x :: r) = false := by
  have h1 : d ≠ 'i' := isdigit_ne d 'i' hd (by decide)
  have h2 : d ≠ 'I' := isdigit_ne d 'I' hd (by decide)
  have h3 : d ≠ 'n' := isdigit_ne d 'n' hd (by decide)
  have h4 : d ≠ 'N' := isdigit_ne d 'N' hd (by decide)
  simp [outsideDecimal, h1, h2, h3, h4, hx.1, hx.2]

/-- After the digits before the point: a point with digits, or nothing, and then a
whitespace character. -/
theorem scanDouble_digits (whole frac : List Char) (c : Char) (R : List Char)
    (hne : whole ≠ []) (hwhole : ∀ x ∈ whole, isdigit x = true)
    (hfrac : ∀ x ∈ frac, isdigit x = true) (hc : isspace c = true) :
    let tail := (if frac = [] then [] else '.' :: frac) ++ c :: R
    outsideDecimal (whole ++ tail) = false ∧
      (whole ++ tail).takeWhile isdigit = whole ∧
      scanFraction ((whole ++ tail).dropWhile isdigit) = (frac, c :: R) := by
  intro tail
  obtain ⟨hcd, hcp, _, _⟩ := isspace_not_numeral c hc
  have hcx : c ≠ 'x' ∧ c ≠ 'X' := by
    rcases isspace_cases c hc with h | h | h | h | h | h <;> subst h <;> decide
  obtain ⟨y, ys, hys, hyd, hyx⟩ :
      ∃ y ys, tail = y :: ys ∧ isdigit y = false ∧ (y ≠ 'x' ∧ y ≠ 'X') := by
    by_cases hf : frac = []
    · exact ⟨c, R, by simp [tail, hf], hcd, hcx⟩
    · exact ⟨'.', frac ++ c :: R, by simp [tail, hf], by decide, by decide⟩
  refine ⟨?_, ?_, ?_⟩
  · cases whole with
    | nil => exact absurd rfl hne
    | cons d ds =>
      have hd : isdigit d = true := hwhole d (by simp)
      cases ds with
      | nil =>
        rw [hys]
        exact outsideDecimal_digits d y ys hd hyx
      | cons d2 ds2 =>
        have hd2 : isdigit d2 = true := hwhole d2 (by simp)
        exact outsideDecimal_digits d d2 _ hd
          ⟨isdigit_ne d2 'x' hd2 (by decide), isdigit_ne d2 'X' hd2 (by decide)⟩
  · rw [hys]
    exact takeWhile_stop whole y ys hwhole hyd
  · rw [hys, dropWhile_stop whole y ys hwhole hyd, ← hys]
    by_cases hf : frac = []
    · simp [tail, hf, scanFraction, hcp]
    · simp only [tail, hf, if_false, List.cons_append, scanFraction, if_true]
      rw [takeWhile_stop frac c R hfrac hcd, dropWhile_stop frac c R hfrac hcd]

theorem Numeral.digits_of_wellFormed (n : Numeral) (h : n.wellFormed = true) :
    n.whole ≠ [] ∧ (∀ x ∈ n.whole, isdigit x = true) ∧ (∀ x ∈ n.frac, isdigit x = true) := by
  simp only [Numeral.wellFormed, Bool.and_eq_true, Bool.not_eq_true', List.isEmpty_eq_false,
    List.all_eq_true] at h
  exact ⟨h.1.1, h.1.2, h.2⟩

theorem scanDouble_numeral (n : Numeral) (hwf : n.wellFormed = true) (c : Char)
    (R : List Char) (hc : isspace c = true) :
    scanDouble (n.text ++ c :: R) = Conv.assigned n.value (c :: R) := by
  obtain ⟨hne, hwhole, hfrac⟩ := n.digits_of_wellFormed hwf
  obtain ⟨hout, htake, hfr⟩ := scanDouble_digits n.whole n.frac c R hne hwhole hfrac hc
  obtain ⟨_, _, hce, hcE⟩ := isspace_not_numeral c hc
  have hsign : scanSign (n.text ++ c :: R) =
      (n.neg, n.whole ++ ((if n.frac = [] then [] else '.' :: n.frac) ++ c :: R)) := by
    cases hneg : n.neg with
    | true => simp [Numeral.text, hneg, scanSign]
    | false =>
      cases hw : n.whole with
      | nil => exact absurd hw hne
      | cons d ds =>
        have hd : isdigit d = true := hwhole d (by simp [hw])
        simp only [Numeral.text, hneg, hw, List.nil_append, List.cons_append, Bool.false_eq_true,
          if_false]
        rw [scanSign_digit d _ hd]
        simp
  simp only [scanDouble, hsign, hout, htake, hfr, Bool.false_eq_true, if_false]
  rw [if_neg (by simp [hne])]
  simp only [hce, hcE, or_self, if_false]
  rw [decimalValue_plain, Numeral.value]

theorem skipSpace_stop (ws : List Char) (y : Char) (ys : List Char)
    (hws : ∀ x ∈ ws, isspace x = true) (hy : isspace y = false) :
    skipSpace (ws ++ y :: ys) = y :: ys :=
  dropWhile_stop ws y ys hws hy

theorem Numeral.text_head (n : Numeral) (hwf : n.wellFormed = true) (R : List Char) :
    ∃ y ys, n.text ++ R = y :: ys ∧ isspace y = false := by
  obtain ⟨hne, hwhole, _⟩ := n.digits_of_wellFormed hwf
  cases hneg : n.neg with
  | true =>
    exact ⟨'-', n.whole ++ ((if n.frac = [] then [] else '.' :: n.frac) ++ R),
      by simp [Numeral.text, hneg], by decide⟩
  | false =>
    cases hw : n.whole with
    | nil => exact absurd hw hne
    | cons d ds =>
      exact ⟨d, ds ++ ((if n.frac = [] then [] else '.' :: n.frac) ++ R),
        by simp [Numeral.text, hneg, hw], isdigit_not_space d (hwhole d (by simp [hw]))⟩

theorem scanLf_numeral (n : Numeral) (hwf : n.wellFormed = true) (c : Char) (R : List Char)
    (hc : isspace c = true) :
    scanLf (' ' :: (n.text ++ c :: R)) = Conv.assigned n.value (c :: R) := by
  obtain ⟨y, ys, hys, hy⟩ := n.text_head hwf (c :: R)
  have hskip : skipSpace (' ' :: (n.text ++ c :: R)) = n.text ++ c :: R := by
    rw [hys]
    exact skipSpace_stop [' '] y ys (by simp [isspace]) hy
  rw [scanLf, hskip, scanDouble_numeral n hwf c R hc]

/-- The parts of `Entry.wellFormed`. -/
theorem Entry.fields_of_wellFormed (e : Entry) (h : e.wellFormed = true) :
    (e.name ≠ [] ∧ (∀ c ∈ e.name, isspace c = false) ∧ (∀ c ∈ e.name, c ≠ '\x00') ∧
        e.name.length < BUFSIZE) ∧
      (e.low.wellFormed = true ∧ e.high.wellFormed = true ∧ e.step.wellFormed = true ∧
        e.initial.wellFormed = true) ∧
      (e.command ≠ [] ∧ (∀ c ∈ e.command, inScanset c = true) ∧ e.command.head? ≠ some ' ' ∧
        e.command.length < BUFSIZE) := by
  simp only [Entry.wellFormed, Bool.and_eq_true, Bool.not_eq_true', List.isEmpty_eq_false,
    List.all_eq_true, decide_eq_true_eq] at h
  obtain ⟨⟨⟨⟨⟨⟨⟨⟨⟨⟨h1, h2⟩, h3⟩, h4⟩, h5⟩, h6⟩, h7⟩, h8⟩, h9⟩, h10⟩, h11⟩ := h
  exact ⟨⟨h1, fun c hc => (h2 c hc).1, fun c hc => (h2 c hc).2, h3⟩, ⟨h4, h5, h6, h7⟩,
    ⟨h8, h9, h10, h11⟩⟩

theorem cstr_of_no_nul (s : List Char) (h : ∀ c ∈ s, c ≠ '\x00') : cstr s = s := by
  induction s with
  | nil => rfl
  | cons x xs ih =>
    have hx : x ≠ '\x00' := h x (by simp)
    have hxs : ∀ c ∈ xs, c ≠ '\x00' := fun c hc => h c (by simp [hc])
    have hrec := ih hxs
    simp only [cstr] at hrec ⊢
    rw [List.takeWhile_cons, hrec]
    simp [hx]

theorem inScanset_space (c : Char) (h : inScanset c = true) (hc : c ≠ ' ') :
    isspace c = false := by
  by_contra hs
  have hs : isspace c = true := by simpa using hs
  rcases isspace_cases c hs with h1 | h1 | h1 | h1 | h1 | h1 <;> subst h1 <;>
    first | exact hc rfl | exact absurd h (by decide)

theorem inScanset_no_nul (c : Char) (h : inScanset c = true) : c ≠ '\x00' := by
  intro e
  subst e
  exact absurd h (by decide)

theorem scanS_name (name : List Char) (ws R : List Char) (hne : name ≠ [])
    (hname : ∀ c ∈ name, isspace c = false) (hws : ∀ c ∈ ws, isspace c = true) :
    scanS (ws ++ (name ++ ' ' :: R)) = Conv.assigned name (' ' :: R) := by
  cases hn : name with
  | nil => exact absurd hn hne
  | cons c0 cs =>
    have hc0 : isspace c0 = false := hname c0 (by simp [hn])
    have hskip : skipSpace (ws ++ (c0 :: cs ++ ' ' :: R)) = c0 :: cs ++ ' ' :: R := by
      rw [List.cons_append]
      exact skipSpace_stop ws c0 _ hws hc0
    have hall : ∀ x ∈ c0 :: cs, (fun c => !isspace c) x = true := by
      intro x hx
      simp [hname x (by simpa [hn] using hx)]
    rw [scanS]
    simp only [hskip]
    rw [if_neg (by simp)]
    rw [takeWhile_stop (c0 :: cs) ' ' R hall (by decide),
      dropWhile_stop (c0 :: cs) ' ' R hall (by decide)]

theorem scanSet_command (indent : Nat) (command tail : List Char) (hne : command ≠ [])
    (hset : ∀ c ∈ command, inScanset c = true) (hhead : command.head? ≠ some ' ') :
    scanSet (skipSpace ('\n' :: (List.replicate indent ' ' ++ (command ++ '\n' :: tail)))) =
      Conv.assigned command ('\n' :: tail) := by
  cases hc : command with
  | nil => exact absurd hc hne
  | cons k0 ks =>
    have hk0 : isspace k0 = false := by
      apply inScanset_space k0 (hset k0 (by simp [hc]))
      intro e
      apply hhead
      simp [hc, e]
    have hskip : skipSpace ('\n' :: (List.replicate indent ' ' ++ (k0 :: ks ++ '\n' :: tail))) =
        k0 :: ks ++ '\n' :: tail := by
      have h := skipSpace_stop ('\n' :: List.replicate indent ' ') k0 (ks ++ '\n' :: tail)
        (by
          intro x hx
          rcases List.mem_cons.mp hx with h | h
          · subst h
            decide
          · rw [List.eq_of_mem_replicate h]
            decide) hk0
      simpa using h
    have hall : ∀ x ∈ k0 :: ks, inScanset x = true := by
      intro x hx
      exact hset x (by simpa [hc] using hx)
    rw [hskip, scanSet, takeWhile_stop (k0 :: ks) '\n' tail hall (by decide),
      dropWhile_stop (k0 :: ks) '\n' tail hall (by decide)]
    simp

/-- One call of `fscanf` at a well-formed record, after any whitespace, reads the six
fields of the record and stops before the line end of the command line. -/
theorem fscanfOn_entry (e : Entry) (hwf : e.wellFormed = true) (ws tail : List Char)
    (hws : ∀ c ∈ ws, isspace c = true) (l : Locals) :
    fscanfOn (ws ++ (e.text ++ tail)) l =
      Outcome.done (6,
        { attr := e.name, command := e.command, low := e.low.value, high := e.high.value,
          step := e.step.value, initial := e.initial.value }, '\n' :: tail) := by
  obtain ⟨⟨hn1, hn2, _, hn4⟩, ⟨hlow, hhigh, hstep, hinit⟩, ⟨hc1, hc2, hc3, hc4⟩⟩ :=
    e.fields_of_wellFormed hwf
  have hS := scanS_name e.name ws (e.low.text ++ ' ' :: (e.high.text ++ ' ' :: (e.step.text ++
    ' ' :: (e.initial.text ++ '\n' :: (List.replicate e.indent ' ' ++
      (e.command ++ '\n' :: tail)))))) hn1 hn2 hws
  have h1 := scanLf_numeral e.low hlow ' ' (e.high.text ++ ' ' :: (e.step.text ++
    ' ' :: (e.initial.text ++ '\n' :: (List.replicate e.indent ' ' ++
      (e.command ++ '\n' :: tail))))) (by decide)
  have h2 := scanLf_numeral e.high hhigh ' ' (e.step.text ++
    ' ' :: (e.initial.text ++ '\n' :: (List.replicate e.indent ' ' ++
      (e.command ++ '\n' :: tail)))) (by decide)
  have h3 := scanLf_numeral e.step hstep ' ' (e.initial.text ++ '\n' ::
    (List.replicate e.indent ' ' ++ (e.command ++ '\n' :: tail))) (by decide)
  have h4 := scanLf_numeral e.initial hinit '\n'
    (List.replicate e.indent ' ' ++ (e.command ++ '\n' :: tail)) (by decide)
  have h5 := scanSet_command e.indent e.command tail hc1 hc2 hc3
  have htext : e.text ++ tail = e.name ++ ' ' :: (e.low.text ++ ' ' :: (e.high.text ++
      ' ' :: (e.step.text ++ ' ' :: (e.initial.text ++ '\n' ::
        (List.replicate e.indent ' ' ++ (e.command ++ '\n' :: tail)))))) := by
    simp [Entry.text, List.append_assoc]
  rw [htext, fscanfOn]
  simp only [hS, h1, h2, h3, h4, h5]
  rw [if_neg (by omega), if_neg (by omega)]

theorem fscanfOn_blank (ws : List Char) (hws : ∀ c ∈ ws, isspace c = true) (l : Locals) :
    fscanfOn ws l = Outcome.done (-1, l, []) := by
  have hskip : skipSpace ws = [] := by
    simpa [skipSpace, List.dropWhile_eq_nil_iff] using hws
  simp [fscanfOn, scanS, hskip]

theorem scanLoop_entries (n : List Char) (es : List Entry)
    (hwf : ∀ e ∈ es, e.wellFormed = true) :
    ∀ (fuel : Nat) (ws : List Char) (l : Locals), es.length + 2 ≤ fuel →
      (∀ c ∈ ws, isspace c = true) →
      scanLoop n fuel { unread := ws ++ configText es, eof := false } l =
        Outcome.done ((es.find? (fun e => decide (e.name = n))).map Entry.adjustment) := by
  induction es with
  | nil =>
    intro fuel ws l hfuel hws
    obtain ⟨k, rfl⟩ : ∃ k, fuel = k + 2 := ⟨fuel - 2, by omega⟩
    simp [scanLoop, fscanf, configText, fscanfOn_blank ws hws l]
  | cons e es ih =>
    intro fuel ws l hfuel hws
    obtain ⟨k, rfl⟩ : ∃ k, fuel = k + 1 := ⟨fuel - 1, by omega⟩
    have he : e.wellFormed = true := hwf e (by simp)
    have hes : ∀ x ∈ es, x.wellFormed = true := fun x hx => hwf x (by simp [hx])
    obtain ⟨⟨_, _, hnul, _⟩, _, ⟨_, hset, _, _⟩⟩ := e.fields_of_wellFormed he
    have hname : cstr e.name = e.name := cstr_of_no_nul e.name hnul
    have hcmd : cstr e.command = e.command :=
      cstr_of_no_nul e.command (fun c hc => inScanset_no_nul c (hset c hc))
    have hscan := fscanfOn_entry e he ws (configText es) hws l
    rw [scanLoop]
    simp only [Bool.false_eq_true, if_false, fscanf, configText, hscan, hname, hcmd,
      List.isEmpty_cons, true_and]
    by_cases hn : e.name = n
    · rw [if_pos hn.symm]
      simp [List.find?, hn, Entry.adjustment]
    · rw [if_neg (fun h => hn h.symm)]
      have hrec := ih hes k ['\n']
        { attr := e.name, command := e.command, low := e.low.value, high := e.high.value,
          step := e.step.value, initial := e.initial.value }
        (by simp at hfuel; omega) (by decide)
      simp only [List.singleton_append] at hrec
      rw [hrec]
      simp [List.find?, hn]

theorem configText_length (es : List Entry) : es.length ≤ (configText es).length := by
  induction es with
  | nil => simp
  | cons e es ih =>
    have : 1 ≤ e.text.length := by
      simp [Entry.text]
      omega
    simp only [configText, List.length_cons, List.length_append]
    omega

theorem getadjustment_entries (garbage : Locals) (n : List Char) (es : List Entry)
    (adj : adjustment) (hwf : ∀ e ∈ es, e.wellFormed = true) :
    getadjustment garbage (some (configText es)) n adj =
      match es.find? (fun e => decide (e.name = n)) with
      | some e => Outcome.done (true, e.adjustment)
      | none => Outcome.done (false, adj) := by
  have h := scanLoop_entries n es hwf ((configText es).length + 2) [] garbage
    (by have := configText_length es; omega) (by simp)
  simp only [List.nil_append] at h
  rw [getadjustment]
  simp only [h]
  cases es.find? (fun e => decide (e.name = n)) <;> rfl

theorem find_first (before after : List Entry) (e : Entry) (n : List Char)
    (hbefore : ∀ x ∈ before, x.name ≠ n) (hname : e.name = n) :
    (before ++ e :: after).find? (fun x => decide (x.name = n)) = some e := by
  induction before with
  | nil => simp [List.find?, hname]
  | cons b bs ih =>
    have hb : b.name ≠ n := hbefore b (by simp)
    have hbs : ∀ x ∈ bs, x.name ≠ n := fun x hx => hbefore x (by simp [hx])
    simp [List.find?, hb, ih hbs]

theorem find_none (es : List Entry) (n : List Char) (habsent : ∀ x ∈ es, x.name ≠ n) :
    es.find? (fun x => decide (x.name = n)) = none := by
  induction es with
  | nil => rfl
  | cons b bs ih =>
    have hb : b.name ≠ n := habsent b (by simp)
    have hbs : ∀ x ∈ bs, x.name ≠ n := fun x hx => habsent x (by simp [hx])
    simp [List.find?, hb, ih hbs]

/-- C9, as stated, fails on command lines that begin with spaces or hold nothing else.
The command line `  x` of record `a` is returned as `x`; and after the record `a` with
the command line of one space, the record `b` is read as the command of `a`, so that
the lookup of `b` returns false. -/
theorem lookup_blank_command_line :
    getadjustment noLocals (some "a 1 2 3 4\n  x\n".toList) "a".toList startsAbove =
        Outcome.done (true,
          { name := "a".toList, low := 1, high := 2, step := 3, initial := 4,
            command := "x".toList }) ∧
      getadjustment noLocals (some "a 1 2 3 4\n \nb 5 6 7 8\nls\n".toList) "b".toList
        startsAbove = Outcome.done (false, startsAbove) ∧
      getadjustment noLocals (some "a 1 2 3 4\n \nb 5 6 7 8\nls\n".toList) "a".toList
        startsAbove =
        Outcome.done (true,
          { name := "a".toList, low := 1, high := 2, step := 3, initial := 4,
            command := "b 5 6 7 8".toList }) := by
  refine ⟨?_, ?_, ?_⟩ <;> decide

/-- C9, amended: in a text of well-formed records (name without whitespace, numbers
in decimal notation, command line of scan-set characters with one that is not a space,
name and command under 1024 characters), the lookup of a name returns true with the
first record of that name: its four numbers as written and its command line without
the leading spaces. -/
theorem lookup_returns_first (garbage : Locals) (before after : List Entry) (e : Entry)
    (n : List Char) (adj : adjustment)
    (hwf : ∀ x ∈ before ++ e :: after, x.wellFormed = true)
    (hbefore : ∀ x ∈ before, x.name ≠ n) (hname : e.name = n) :
    getadjustment garbage (some (configText (before ++ e :: after))) n adj =
      Outcome.done (true, e.adjustment) := by
  rw [getadjustment_entries garbage n _ adj hwf, find_first before after e n hbefore hname]

theorem brightnessEntry_adjustment : brightnessEntry.adjustment = brightness := by
  simp [Entry.adjustment, brightnessEntry, brightness, Numeral.value, natOfDigits]

/-- C9, amended, at the example configuration: the lookup of `brightness` passes the
record `gamma` and returns low 15, high 95, step 5, initial 20 and the command. -/
theorem lookup_returns_first_witness :
    configText ([gammaEntry] ++ brightnessEntry :: []) = exampleConfig ∧
      getadjustment noLocals (some exampleConfig) "brightness".toList startsAbove =
        Outcome.done (true,
          { name := "brightness".toList, low := 15, high := 95, step := 5, initial := 20,
            command := "echo % > /sys/class/backlight/nvidia_0/brightness".toList }) := by
  have htext : configText ([gammaEntry] ++ brightnessEntry :: []) = exampleConfig := by decide
  have h := lookup_returns_first noLocals [gammaEntry] [] brightnessEntry "brightness".toList
    startsAbove (by decide) (by decide) (by decide)
  rw [htext, brightnessEntry_adjustment] at h
  exact ⟨htext, h⟩

/-- C10, as stated, fails on a command line that holds only spaces: after the record `a`
with such a command line the record `b` is read as the command of `a`, the command
line of `b` is read as a record named `foo`, and the lookup of `foo`, the name of no
record, returns true. -/
theorem lookup_finds_unnamed :
    getadjustment noLocals
        (some "a 1 2 3 4\n \nb 1 2 3 4\nfoo 5 6 7 8\nc 1 2 3 4\nls\n".toList) "foo".toList
        startsAbove =
      Outcome.done (true,
        { name := "foo".toList, low := 5, high := 6, step := 7, initial := 8,
          command := "c 1 2 3 4".toList }) := by
  decide

/-- C10, amended: in a text of well-formed records none of which has the requested
name, and when the file cannot be opened, the loader returns false and leaves the
caller's `_adjustment` as it was. -/
theorem lookup_absent (garbage : Locals) (es : List Entry) (n : List Char) (adj : adjustment)
    (hwf : ∀ x ∈ es, x.wellFormed = true) (habsent : ∀ x ∈ es, x.name ≠ n) :
    getadjustment garbage (some (configText es)) n adj = Outcome.done (false, adj) ∧
      getadjustment garbage none n adj = Outcome.done (false, adj) := by
  constructor
  · rw [getadjustment_entries garbage n es adj hwf, find_none es n habsent]
  · rfl

/-- C10, amended, at the example configuration and the name `contrast`. -/
theorem lookup_absent_witness :
    configText [gammaEntry, brightnessEntry] = exampleConfig ∧
      getadjustment noLocals (some exampleConfig) "contrast".toList startsAbove =
        Outcome.done (false, startsAbove) := by
  have htext : configText [gammaEntry, brightnessEntry] = exampleConfig := by decide
  have h := (lookup_absent noLocals [gammaEntry, brightnessEntry] "contrast".toList
    startsAbove (by decide) (by decide)).1
  rw [htext] at h
  exact ⟨htext, h⟩

/-! ### Further properties of the loop -/

/-- C13. Read at the loop test, a byte other than `q`, the escape byte, `D` and `C`
leaves the value as it is and adds one command and one echo, built from that value;
the loop goes on with the rest of the input. -/
theorem other_key (fmt : ℚ → List Char) (a : adjustment) (s : Session) (key : Nat)
    (ks : List Nat) (hq : key ≠ QUIT) (he : key ≠ ESC) (hl : key ≠ LEFT) (hr : key ≠ RIGHT) :
    whileCond fmt a (key :: ks) s =
      whileCond fmt a ks
        { value := s.value
          commands := s.commands ++ [buildCommand fmt a.command s.value]
          echoes := s.echoes ++ [(a.name, s.value)] } := by
  rw [whileCond_cons, if_neg hq, if_neg he, runBody, adjustValue_other a key s.value hl hr]

/-- C13 at the up and down keys, `A` and `B`. -/
theorem other_key_witness :
    whileCond formatDouble brightness (UP :: [DOWN])
        { value := 20, commands := [], echoes := [] } =
      whileCond formatDouble brightness [DOWN]
        { value := 20
          commands := [] ++ [buildCommand formatDouble brightness.command 20]
          echoes := [] ++ [(brightness.name, 20)] } :=
  other_key formatDouble brightness { value := 20, commands := [], echoes := [] } UP [DOWN]
    (by decide) (by decide) (by decide) (by decide)

theorem whileCond_commands_extend (fmt : ℚ → List Char) (a : adjustment) :
    ∀ (n : Nat) (stdin : List Nat) (s : Session), stdin.length ≤ n →
      ∃ more, (whileCond fmt a stdin s).commands = s.commands ++ more := by
  intro n
  induction n with
  | zero =>
    intro stdin s hn
    have : stdin = [] := List.length_eq_zero.mp (Nat.le_zero.mp hn)
    subst this
    exact ⟨[], by simp [whileCond]⟩
  | succ n ih =>
    intro stdin s hn
    cases stdin with
    | nil => exact ⟨[], by simp [whileCond]⟩
    | cons key rest =>
      have hrest : rest.length ≤ n := by simpa using hn
      rw [whileCond_cons]
      split
      · exact ⟨[], by simp⟩
      · split
        · exact ih rest.tail s (by have := List.length_tail rest; omega)
        · obtain ⟨more, hmore⟩ := ih rest (runBody fmt a key s) hrest
          exact ⟨buildCommand fmt a.command (adjustValue a key s.value) :: more, by
            rw [hmore]
            simp [runBody]⟩

/-- C15. On empty input `adjust` returns the initial value as it is, with one command
and one echo built from it; and on every input the first command run is the one built
from the initial value. -/
theorem initial_invocation (fmt : ℚ → List Char) (a : adjustment) :
    adjust fmt a [] =
        { value := a.initial
          commands := [buildCommand fmt a.command a.initial]
          echoes := [(a.name, a.initial)] } ∧
      ∀ stdin : List Nat,
        (adjust fmt a stdin).commands.head? = some (buildCommand fmt a.command a.initial) := by
  have h0 : adjustValue a 0 a.initial = a.initial :=
    adjustValue_other a 0 a.initial (by decide) (by decide)
  constructor
  · rw [adjust_eq]
    simp [whileCond, runBody, h0]
  · intro stdin
    rw [adjust_eq]
    obtain ⟨more, hmore⟩ := whileCond_commands_extend fmt a stdin.length stdin
      (runBody fmt a 0 { value := a.initial, commands := [], echoes := [] }) (le_refl _)
    rw [hmore]
    simp [runBody, h0]

/-- C16. In a template split at its first `%` as `pre ++ '%' :: post`, only that `%` is
replaced: `pre` and `post`, with every `%` of `post`, are copied as they are, so the
template characters of the command hold one `%` fewer than the template, and so does
the whole command when the formatted value has no `%`. -/
theorem later_placeholders_kept (fmt : ℚ → List Char) (command pre post : List Char)
    (value : ℚ) (hsplit : command = pre ++ '%' :: post) (hfirst : '%' ∉ pre) :
    buildCommand fmt command value = pre ++ fmt value ++ post ++ " 2>/dev/null".toList ∧
      (pre ++ post).count '%' + 1 = command.count '%' ∧
      ('%' ∉ fmt value →
        (buildCommand fmt command value).count '%' + 1 = command.count '%') := by
  subst hsplit
  have hbuild : buildCommand fmt (pre ++ '%' :: post) value =
      pre ++ fmt value ++ post ++ " 2>/dev/null".toList := by
    simp [buildCommand, std_copy, std_find_append pre post '%' hfirst, suffix]
    omega
  have hpre : pre.count '%' = 0 := List.count_eq_zero_of_not_mem hfirst
  refine ⟨hbuild, ?_, ?_⟩
  · simp [List.count_append, hpre]
  · intro hfmt
    have hv : (fmt value).count '%' = 0 := List.count_eq_zero_of_not_mem hfmt
    have hs : (" 2>/dev/null".toList).count '%' = 0 := by decide
    rw [hbuild]
    simp only [List.count_append, List.count_cons_self, hpre, hv, hs]
    omega

/-- C16 at the template `echo % > %.log` and the value 0.4: the second `%` stays. -/
theorem later_placeholders_kept_witness :
    buildCommand formatDouble "echo % > %.log".toList (2 / 5) =
        "echo 0.4 > %.log 2>/dev/null".toList ∧
      ("echo 0.4 > %.log 2>/dev/null".toList).count '%' + 1 =
        ("echo % > %.log".toList).count '%' := by
  have h := later_placeholders_kept formatDouble "echo % > %.log".toList "echo ".toList
    " > %.log".toList (2 / 5) (by decide) (by decide)
  rw [formatDouble_two_fifths] at h
  refine ⟨?_, by decide⟩
  rw [h.1]
  decide

/-- C18. In exact arithmetic: when `low ≤ v - step` and `v ≤ high`, left then right
brings the value back to `v`; when `v + step ≤ high` and `low ≤ v`, right then left
brings it back to `v`. -/
theorem left_right_reversible (fmt : ℚ → List Char) (a : adjustment) (s : Session) :
    (a.low ≤ s.value - a.step ∧ s.value ≤ a.high →
        (runBody fmt a RIGHT (runBody fmt a LEFT s)).value = s.value) ∧
      (s.value + a.step ≤ a.high ∧ a.low ≤ s.value →
        (runBody fmt a LEFT (runBody fmt a RIGHT s)).value = s.value) := by
  constructor
  · rintro ⟨h1, h2⟩
    simp only [runBody]
    rw [adjustValue_LEFT, adjustValue_RIGHT, max_eq_left h1, sub_add_cancel, min_eq_left h2]
  · rintro ⟨h1, h2⟩
    simp only [runBody]
    rw [adjustValue_RIGHT, adjustValue_LEFT, min_eq_left h1, add_sub_cancel_right,
      max_eq_left h2]

/-- C18 at the brightness example and the value 20: `15 ≤ 20 - 5`, `20 + 5 ≤ 95`. -/
theorem left_right_reversible_witness :
    (brightness.low ≤ (20 : ℚ) - brightness.step ∧ (20 : ℚ) ≤ brightness.high) ∧
      ((20 : ℚ) + brightness.step ≤ brightness.high ∧ brightness.low ≤ (20 : ℚ)) ∧
      (runBody formatDouble brightness RIGHT
        (runBody formatDouble brightness LEFT
          { value := 20, commands := [], echoes := [] })).value = 20 ∧
      (runBody formatDouble brightness LEFT
        (runBody formatDouble brightness RIGHT
          { value := 20, commands := [], echoes := [] })).value = 20 := by
  have h := left_right_reversible formatDouble brightness
    { value := 20, commands := [], echoes := [] }
  have h1 : brightness.low ≤ (20 : ℚ) - brightness.step ∧ (20 : ℚ) ≤ brightness.high := by
    norm_num [brightness]
  have h2 : (20 : ℚ) + brightness.step ≤ brightness.high ∧ brightness.low ≤ (20 : ℚ) := by
    norm_num [brightness]
  exact ⟨h1, h2, h.1 h1, h.2 h2⟩

/-! ### The loader with `%lf` left open -/

theorem fscanfOn_eq_with (s : List Char) (l : Locals) : fscanfOn s l = fscanfWith scanLf s l :=
  rfl

theorem scanLoop_eq_with (n : List Char) :
    ∀ (fuel : Nat) (f : FILE) (l : Locals),
      scanLoop n fuel f l = scanLoopWith scanLf n fuel f l := by
  intro fuel
  induction fuel with
  | zero => intro f l; rfl
  | succ k ih =>
    intro f l
    rw [scanLoop, scanLoopWith, fscanf, fscanfOn_eq_with]
    cases fscanfWith scanLf f.unread l with
    | done r =>
      obtain ⟨fieldsread, l', s'⟩ := r
      simp only [ih]
    | overrun => rfl
    | unmodelled => rfl
    | fuel => rfl

theorem getadjustment_eq_with (garbage : Locals) (file : Option (List Char)) (n : List Char)
    (adj : adjustment) :
    getadjustment garbage file n adj = getadjustmentWith scanLf garbage file n adj := by
  cases file with
  | none => rfl
  | some text => simp only [getadjustment, getadjustmentWith, scanLoop_eq_with]

theorem dropWhile_length_le (p : Char → Bool) (s : List Char) :
    (s.dropWhile p).length ≤ s.length := by
  induction s with
  | nil => simp
  | cons x xs ih =>
    rw [List.dropWhile_cons]
    split
    · simp only [List.length_cons]
      omega
    · exact le_refl _

theorem dropWhile_head (p : Char → Bool) (s : List Char) (c : Char) (cs : List Char)
    (h : s.dropWhile p = c :: cs) : p c = false := by
  induction s with
  | nil => simp at h
  | cons x xs ih =>
    rw [List.dropWhile_cons] at h
    split at h
    · exact ih h
    · rename_i hx
      obtain ⟨rfl, _⟩ := List.cons.inj h
      simpa using hx

theorem scanS_cases (s : List Char) :
    scanS s = Conv.failure [] ∨
      ∃ tok r, scanS s = Conv.assigned tok r ∧ r.length < s.length := by
  cases ht : skipSpace s with
  | nil =>
    left
    simp [scanS, ht]
  | cons c cs =>
    right
    have hc : isspace c = false := dropWhile_head isspace s c cs ht
    have hlen : (skipSpace s).length ≤ s.length := dropWhile_length_le isspace s
    rw [ht, List.length_cons] at hlen
    refine ⟨(c :: cs).takeWhile (fun c => !isspace c),
      (c :: cs).dropWhile (fun c => !isspace c), by simp [scanS, ht], ?_⟩
    rw [List.dropWhile_cons]
    simp only [hc, Bool.not_false, if_true]
    have := dropWhile_length_le (fun c => !isspace c) cs
    omega

theorem scanSet_cases (s : List Char) :
    scanSet s = Conv.failure s ∨
      ∃ tok r, scanSet s = Conv.assigned tok r ∧ r.length ≤ s.length := by
  by_cases h : s.takeWhile inScanset = []
  · left
    simp [scanSet, h]
  · right
    exact ⟨s.takeWhile inScanset, s.dropWhile inScanset, by simp [scanSet, h],
      dropWhile_length_le inScanset s⟩

/-- One call of `fscanf` either overruns a buffer, or meets a numeral outside the model,
or returns having read at least one character or everything there was. -/
theorem fscanfWith_progress (lf : List Char → Conv ℚ) (hlf : Consuming lf) (s : List Char)
    (l : Locals) :
    fscanfWith lf s l = Outcome.overrun ∨
      (fscanfWith lf s l = Outcome.unmodelled ∧ ∃ t, lf t = Conv.unmodelled) ∨
      ∃ k l1 s1, fscanfWith lf s l = Outcome.done (k, l1, s1) ∧
        (s1.length < s.length ∨ s1 = []) := by
  unfold fscanfWith
  rcases scanS_cases s with hS | ⟨tok, r0, hS, hlen0⟩
  · simp only [hS]
    exact Or.inr (Or.inr ⟨_, _, _, rfl, Or.inr rfl⟩)
  · simp only [hS]
    split
    · exact Or.inl rfl
    · have h1 := hlf r0
      cases hl1 : lf r0 with
      | unmodelled => exact Or.inr (Or.inl ⟨rfl, r0, hl1⟩)
      | failure r1 =>
        rw [hl1] at h1
        exact Or.inr (Or.inr ⟨_, _, _, rfl, Or.inl (by simp only at h1; omega)⟩)
      | assigned v1 r1 =>
        rw [hl1] at h1
        simp only at h1 ⊢
        have h2 := hlf r1
        cases hl2 : lf r1 with
        | unmodelled => exact Or.inr (Or.inl ⟨rfl, r1, hl2⟩)
        | failure r2 =>
          rw [hl2] at h2
          exact Or.inr (Or.inr ⟨_, _, _, rfl, Or.inl (by simp only at h2; omega)⟩)
        | assigned v2 r2 =>
          rw [hl2] at h2
          simp only at h2 ⊢
          have h3 := hlf r2
          cases hl3 : lf r2 with
          | unmodelled => exact Or.inr (Or.inl ⟨rfl, r2, hl3⟩)
          | failure r3 =>
            rw [hl3] at h3
            exact Or.inr (Or.inr ⟨_, _, _, rfl, Or.inl (by simp only at h3; omega)⟩)
          | assigned v3 r3 =>
            rw [hl3] at h3
            simp only at h3 ⊢
            have h4 := hlf r3
            cases hl4 : lf r3 with
            | unmodelled => exact Or.inr (Or.inl ⟨rfl, r3, hl4⟩)
            | failure r4 =>
              rw [hl4] at h4
              exact Or.inr (Or.inr ⟨_, _, _, rfl, Or.inl (by simp only at h4; omega)⟩)
            | assigned v4 r4 =>
              rw [hl4] at h4
              simp only at h4 ⊢
              have h5 : (skipSpace r4).length ≤ r4.length := dropWhile_length_le isspace r4
              rcases scanSet_cases (skipSpace r4) with hC | ⟨cmd, r5, hC, hlen5⟩
              · simp only [hC]
                exact Or.inr (Or.inr ⟨_, _, _, rfl, Or.inl (by omega)⟩)
              · simp only [hC]
                split
                · exact Or.inl rfl
                · exact Or.inr (Or.inr ⟨_, _, _, rfl, Or.inl (by omega)⟩)

/-- With more fuel than characters left, the loop does not run out of fuel. -/
theorem scanLoopWith_outcome (lf : List Char → Conv ℚ) (hlf : Consuming lf) (n : List Char) :
    ∀ (fuel : Nat) (f : FILE) (l : Locals),
      (if f.eof = true then 0 else f.unread.length + 1) < fuel →
      (∃ r, scanLoopWith lf n fuel f l = Outcome.done r) ∨
        scanLoopWith lf n fuel f l = Outcome.overrun ∨
        (scanLoopWith lf n fuel f l = Outcome.unmodelled ∧ ∃ t, lf t = Conv.unmodelled) := by
  intro fuel
  induction fuel with
  | zero => intro f l h; omega
  | succ k ih =>
    intro f l h
    rw [scanLoopWith]
    cases he : f.eof with
    | true =>
      simp only [if_true]
      exact Or.inl ⟨none, rfl⟩
    | false =>
      rw [he] at h
      simp only [Bool.false_eq_true, if_false] at h ⊢
      rcases fscanfWith_progress lf hlf f.unread l with ho | ⟨hu, t, ht⟩ | ⟨c, l1, s1, hd, hp⟩
      · rw [ho]
        exact Or.inr (Or.inl rfl)
      · rw [hu]
        exact Or.inr (Or.inr ⟨rfl, t, ht⟩)
      · rw [hd]
        simp only
        by_cases hm : c = 6 ∧ n = cstr l1.attr
        · rw [if_pos hm]
          exact Or.inl ⟨_, rfl⟩
        · rw [if_neg hm]
          apply ih
          rcases hp with hlt | hnil
          · simp only
            split <;> omega
          · subst hnil
            simp only [List.isEmpty_nil, if_true]
            omega

theorem scanSign_length (s : List Char) : (scanSign s).2.length ≤ s.length := by
  cases s with
  | nil => simp [scanSign]
  | cons c r =>
    simp only [scanSign]
    split
    · simp
    · split <;> simp

theorem scanFraction_length (s : List Char) : (scanFraction s).2.length ≤ s.length := by
  cases s with
  | nil => simp [scanFraction]
  | cons c r =>
    simp only [scanFraction]
    split
    · have := dropWhile_length_le isdigit r
      simp only [List.length_cons]
      omega
    · simp

theorem scanDouble_rest (s r : List Char)
    (h : scanDouble s = Conv.failure r ∨ ∃ v, scanDouble s = Conv.assigned v r) :
    r.length ≤ s.length := by
  have h1 := scanSign_length s
  have h2 := dropWhile_length_le isdigit (scanSign s).2
  have h3 := scanFraction_length ((scanSign s).2.dropWhile isdigit)
  unfold scanDouble at h
  simp only at h
  split at h
  · simp at h
  · split at h
    · simp only [Conv.failure.injEq, reduceCtorEq, exists_false, or_false] at h
      rw [← h]
      omega
    · split at h
      · rename_i heq
        simp only [reduceCtorEq, Conv.assigned.injEq, false_or] at h
        obtain ⟨_, _, h⟩ := h
        rw [← h]
        simp
      · rename_i c t heq
        have h4 : t.length + 1 ≤ s.length := by
          have : (c :: t).length ≤ s.length := by
            rw [← heq]
            omega
          simpa using this
        split at h
        · split at h
          · simp at h
          · simp only [reduceCtorEq, Conv.assigned.injEq, false_or] at h
            obtain ⟨_, _, h⟩ := h
            rw [← h]
            have h5 := scanSign_length t
            have h6 := dropWhile_length_le isdigit (scanSign t).2
            omega
        · simp only [reduceCtorEq, Conv.assigned.injEq, false_or] at h
          obtain ⟨_, _, h⟩ := h
          rw [← h]
          simp only [List.length_cons]
          omega

/-- The numeric directive of the model reads from the front of its input. -/
theorem scanLf_consuming : Consuming scanLf := by
  intro s
  have hs : (skipSpace s).length ≤ s.length := dropWhile_length_le isspace s
  cases h : scanLf s with
  | unmodelled => trivial
  | failure r =>
    have := scanDouble_rest (skipSpace s) r (Or.inl h)
    simp only
    omega
  | assigned v r =>
    have := scanDouble_rest (skipSpace s) r (Or.inr ⟨v, h⟩)
    simp only
    omega

theorem takeWhile_all (p : Char → Bool) (s : List Char) (h : ∀ c ∈ s, p c = true) :
    s.takeWhile p = s ∧ s.dropWhile p = [] := by
  induction s with
  | nil => simp
  | cons x xs ih =>
    have hx : p x = true := h x (by simp)
    have hxs := ih (fun c hc => h c (by simp [hc]))
    simp [List.takeWhile_cons, List.dropWhile_cons, hx, hxs.1, hxs.2]

theorem fscanfWith_long (lf : List Char → Conv ℚ) (l : Locals) (k : Nat)
    (hk : BUFSIZE ≤ k + 1) :
    fscanfWith lf (List.replicate (k + 1) 'a') l = Outcome.overrun := by
  have hskip : skipSpace (List.replicate (k + 1) 'a') = List.replicate (k + 1) 'a' := by
    rw [List.replicate_succ, skipSpace, List.dropWhile_cons]
    rw [if_neg (by decide)]
  have hall : ∀ c ∈ List.replicate (k + 1) 'a', (fun c => !isspace c) c = true := by
    intro c hc
    rw [List.eq_of_mem_replicate hc]
    decide
  have hne : List.replicate (k + 1) 'a' ≠ [] := by
    rw [List.replicate_succ]
    exact List.cons_ne_nil _ _
  have hS : scanS (List.replicate (k + 1) 'a') =
      Conv.assigned (List.replicate (k + 1) 'a') [] := by
    rw [scanS]
    simp only [hskip, hne, if_false]
    rw [(takeWhile_all _ _ hall).1, (takeWhile_all _ _ hall).2]
  have hlen : BUFSIZE ≤ (List.replicate (k + 1) 'a').length := by
    rw [List.length_replicate]
    exact hk
  rw [fscanfWith]
  simp only [hS, hlen, if_true]

theorem getadjustmentWith_overrun (lf : List Char → Conv ℚ) (garbage : Locals)
    (text n : List Char) (adj : adjustment)
    (h : fscanfWith lf text garbage = Outcome.overrun) :
    getadjustmentWith lf garbage (some text) n adj = Outcome.overrun := by
  rw [getadjustmentWith]
  simp only [scanLoopWith, Bool.false_eq_true, if_false, h]

theorem getadjustmentWith_longToken (lf : List Char → Conv ℚ) (garbage : Locals)
    (n : List Char) (adj : adjustment) :
    getadjustmentWith lf garbage (some longToken) n adj = Outcome.overrun :=
  getadjustmentWith_overrun lf garbage longToken n adj
    (fscanfWith_long lf garbage 4095 (by decide))

/-- The loader comes to an end on every text: it returns true, or returns false with the
caller's tuple as it was, or overruns a buffer, or meets a numeral outside the model. -/
theorem getadjustmentWith_outcome (lf : List Char → Conv ℚ) (hlf : Consuming lf)
    (garbage : Locals) (file : Option (List Char)) (n : List Char) (adj : adjustment) :
    (∃ found, getadjustmentWith lf garbage file n adj = Outcome.done (true, found)) ∨
      getadjustmentWith lf garbage file n adj = Outcome.done (false, adj) ∨
      getadjustmentWith lf garbage file n adj = Outcome.overrun ∨
      (getadjustmentWith lf garbage file n adj = Outcome.unmodelled ∧
        ∃ t, lf t = Conv.unmodelled) := by
  cases file with
  | none => exact Or.inr (Or.inl rfl)
  | some text =>
    rw [getadjustmentWith]
    rcases scanLoopWith_outcome lf hlf n (text.length + 2) { unread := text, eof := false }
      garbage (by simp) with ⟨r, hr⟩ | ho | ⟨hu, t, ht⟩
    · rw [hr]
      cases r with
      | none => exact Or.inr (Or.inl rfl)
      | some found => exact Or.inl ⟨found, rfl⟩
    · rw [ho]
      exact Or.inr (Or.inr (Or.inl rfl))
    · rw [hu]
      exact Or.inr (Or.inr (Or.inr ⟨rfl, t, ht⟩))

/-- C17, as stated, fails: on a text that is one token of 4096 characters the first
`%s` overruns the buffer `attribute`, and the loader has no defined result. -/
theorem loader_overruns_on_long_token :
    longToken.length = 4096 ∧
      getadjustment noLocals (some longToken) "a".toList startsAbove = Outcome.overrun := by
  constructor
  · rw [longToken, List.length_replicate]
  · rw [getadjustment_eq_with]
    exact getadjustmentWith_longToken scanLf noLocals "a".toList startsAbove

/-- C17, amended: whatever the text and however `%lf` converts, a call of `fscanf` that
returns has read at least one character or has reached the end of the text, and the
loader ends within its fuel: it returns true, or false with the caller's tuple
untouched, unless a token of 1024 or more characters overruns its buffer or `lf`
declines a numeral. -/
theorem scan_loop_terminates (lf : List Char → Conv ℚ) (hlf : Consuming lf) (garbage : Locals)
    (text n : List Char) (adj : adjustment) :
    (∀ (s : List Char) (l : Locals) (k : Int) (l1 : Locals) (s1 : List Char),
        fscanfWith lf s l = Outcome.done (k, l1, s1) → s1.length < s.length ∨ s1 = []) ∧
      ((∃ found, getadjustmentWith lf garbage (some text) n adj = Outcome.done (true, found)) ∨
        getadjustmentWith lf garbage (some text) n adj = Outcome.done (false, adj) ∨
        getadjustmentWith lf garbage (some text) n adj = Outcome.overrun ∨
        (getadjustmentWith lf garbage (some text) n adj = Outcome.unmodelled ∧
          ∃ t, lf t = Conv.unmodelled)) := by
  constructor
  · intro s l k l1 s1 h
    rcases fscanfWith_progress lf hlf s l with ho | ⟨hu, _⟩ | ⟨k2, l2, s2, hd, hp⟩
    · rw [h] at ho
      cases ho
    · rw [h] at hu
      cases hu
    · rw [h] at hd
      injection hd with hd
      injection hd with _ hd
      injection hd with _ hd
      subst hd
      exact hp
  · exact getadjustmentWith_outcome lf hlf garbage (some text) n adj

/-- C17, amended, at the numeric directive of the model and a torn text. -/
theorem scan_loop_terminates_witness :
    Consuming scanLf ∧
      (∀ (s : List Char) (l : Locals) (k : Int) (l1 : Locals) (s1 : List Char),
        fscanfWith scanLf s l = Outcome.done (k, l1, s1) → s1.length < s.length ∨ s1 = []) ∧
      ((∃ found, getadjustmentWith scanLf noLocals (some tornConfig) "brightness".toList
          startsAbove = Outcome.done (true, found)) ∨
        getadjustmentWith scanLf noLocals (some tornConfig) "brightness".toList startsAbove =
          Outcome.done (false, startsAbove) ∨
        getadjustmentWith scanLf noLocals (some tornConfig) "brightness".toList startsAbove =
          Outcome.overrun ∨
        (getadjustmentWith scanLf noLocals (some tornConfig) "brightness".toList startsAbove =
          Outcome.unmodelled ∧ ∃ t, scanLf t = Conv.unmodelled)) :=
  ⟨scanLf_consuming,
    scan_loop_terminates scanLf scanLf_consuming noLocals tornConfig "brightness".toList
      startsAbove⟩

theorem getadjustment_tornConfig :
    getadjustment noLocals (some tornConfig) "brightness".toList startsAbove =
      Outcome.done (false, startsAbove) := by
  decide

/-! ### Characters outside the scan set -/

theorem Entry.text_eq (e : Entry) : e.text = e.written ++ ['\n'] := by
  simp [Entry.text, Entry.written, List.append_assoc]

theorem Dbl.le_of_lt_false (a b : Dbl) (ha : a ≠ Dbl.nan) (hb : b ≠ Dbl.nan)
    (h : Dbl.lt a b = false) : Dbl.le b a = true := by
  cases a <;> cases b <;> simp_all [Dbl.lt, Dbl.le]

theorem Dbl.le_trans_true (a b c : Dbl) (hab : Dbl.le a b = true) (hbc : Dbl.le b c = true) :
    Dbl.le a c = true := by
  cases a <;> cases b <;> cases c <;> simp_all [Dbl.le]
  exact le_trans hab hbc

theorem Dbl.eq_of_le_le (a b : Dbl) (hab : Dbl.le a b = true) (hba : Dbl.le b a = true) :
    a = b := by
  cases a <;> cases b <;> simp_all [Dbl.le]
  exact le_antisymm hab hba

theorem Dbl.le_self (a : Dbl) (ha : a ≠ Dbl.nan) : Dbl.le a a = true := by
  cases a <;> simp_all [Dbl.le]

theorem Dbl.ne_nan_of_le (a b : Dbl) (h : Dbl.le a b = true) : a ≠ Dbl.nan ∧ b ≠ Dbl.nan := by
  cases a <;> cases b <;> simp_all [Dbl.le]

theorem Rounding.held (rnd : ℚ → Dbl) (hr : Rounding rnd) (q : ℚ) : Dbl.Held rnd (rnd q) := by
  cases h : rnd q with
  | fin p => exact hr.settled q p h
  | ninf => trivial
  | pinf => trivial
  | nan => trivial

/-- Taking a finite positive step off a value gives a value that is no greater. -/
theorem Dbl.sub_step (rnd : ℚ → Dbl) (hr : Rounding rnd) (v : Dbl) (s : ℚ) (hs : 0 < s)
    (hv : Dbl.Held rnd v) (hn : v ≠ Dbl.nan) :
    Dbl.le (Dbl.sub rnd v (Dbl.fin s)) v = true ∧ Dbl.Held rnd (Dbl.sub rnd v (Dbl.fin s)) ∧
      Dbl.sub rnd v (Dbl.fin s) ≠ Dbl.nan := by
  cases v with
  | nan => exact absurd rfl hn
  | pinf => simp [Dbl.sub, Dbl.add, Dbl.neg, Dbl.le, Dbl.Held]
  | ninf => simp [Dbl.sub, Dbl.add, Dbl.neg, Dbl.le, Dbl.Held]
  | fin q =>
    have hq : rnd q = Dbl.fin q := hv
    have hle := hr.ordered (q + -s) q (by linarith)
    rw [hq] at hle
    exact ⟨hle, hr.held rnd (q + -s), hr.noNan (q + -s)⟩

/-- Adding a finite positive step to a value gives a value that is no less. -/
theorem Dbl.add_step (rnd : ℚ → Dbl) (hr : Rounding rnd) (v : Dbl) (s : ℚ) (hs : 0 < s)
    (hv : Dbl.Held rnd v) (hn : v ≠ Dbl.nan) :
    Dbl.le v (Dbl.add rnd v (Dbl.fin s)) = true ∧ Dbl.Held rnd (Dbl.add rnd v (Dbl.fin s)) ∧
      Dbl.add rnd v (Dbl.fin s) ≠ Dbl.nan := by
  cases v with
  | nan => exact absurd rfl hn
  | pinf => simp [Dbl.add, Dbl.le, Dbl.Held]
  | ninf => simp [Dbl.add, Dbl.le, Dbl.Held]
  | fin q =>
    have hq : rnd q = Dbl.fin q := hv
    have hle := hr.ordered q (q + s) (by linarith)
    rw [hq] at hle
    exact ⟨hle, hr.held rnd (q + s), hr.noNan (q + s)⟩

theorem exact_rounding : Rounding Dbl.fin where
  noNan := by intro q h; cases h
  ordered := by intro p q h; simpa [Dbl.le] using h
  settled := by intro p q _; rfl


theorem adjustValueD_LEFT (rnd : ℚ → Dbl) (a : adjustmentD) (v : Dbl) :
    adjustValueD rnd a LEFT v = std_maxD (Dbl.sub rnd v a.step) a.low := by
  simp [adjustValueD, LEFT, RIGHT]

theorem adjustValueD_RIGHT (rnd : ℚ → Dbl) (a : adjustmentD) (v : Dbl) :
    adjustValueD rnd a RIGHT v = std_minD (Dbl.add rnd v a.step) a.high := by
  simp [adjustValueD, LEFT, RIGHT]

theorem adjustValueD_other (rnd : ℚ → Dbl) (a : adjustmentD) (key : Nat) (v : Dbl)
    (hl : key ≠ LEFT) (hr : key ≠ RIGHT) : adjustValueD rnd a key v = v := by
  simp [adjustValueD, hl, hr]

/-- On finite values whose sums are not rounded, lines 101-105 compute what
`adjustValue` computes. -/
theorem adjustValueD_exact (a : adjustment) (key : Nat) (v : ℚ) :
    adjustValueD Dbl.fin a.toD key (Dbl.fin v) = Dbl.fin (adjustValue a key v) := by
  by_cases hl : key = LEFT
  · subst hl
    rw [adjustValueD_LEFT, adjustValue_LEFT]
    simp only [adjustment.toD, Dbl.sub, Dbl.neg, Dbl.add, std_maxD, Dbl.lt, decide_eq_true_eq]
    by_cases h : v + -a.step < a.low
    · rw [if_pos h, max_eq_right (by linarith)]
    · rw [if_neg h, max_eq_left (by linarith)]
      congr 1
      ring
  · by_cases hr : key = RIGHT
    · subst hr
      rw [adjustValueD_RIGHT, adjustValue_RIGHT]
      simp only [adjustment.toD, Dbl.add, std_minD, Dbl.lt, decide_eq_true_eq]
      by_cases h : a.high < v + a.step
      · rw [if_pos h, min_eq_right (by linarith)]
      · rw [if_neg h, min_eq_left (by linarith)]
    · rw [adjustValueD_other _ _ _ _ hl hr, adjustValue_other _ _ _ hl hr]

/-- A left press with a finite positive step: the value that results is held, is no
NaN, is no less than `low`, and is no greater than `high` if the value was. -/
theorem left_step (rnd : ℚ → Dbl) (hr : Rounding rnd) (a : adjustmentD) (s : ℚ)
    (hstep : a.step = Dbl.fin s) (hpos : 0 < s) (hlh : Dbl.le a.low a.high = true)
    (hlow : Dbl.Held rnd a.low) (v : Dbl) (hv : Dbl.Held rnd v) (hn : v ≠ Dbl.nan) :
    Dbl.Held rnd (adjustValueD rnd a LEFT v) ∧ adjustValueD rnd a LEFT v ≠ Dbl.nan ∧
      Dbl.le a.low (adjustValueD rnd a LEFT v) = true ∧
      (Dbl.le v a.high = true → Dbl.le (adjustValueD rnd a LEFT v) a.high = true) := by
  obtain ⟨hx1, hx2, hx3⟩ := Dbl.sub_step rnd hr v s hpos hv hn
  obtain ⟨hl1, _⟩ := Dbl.ne_nan_of_le a.low a.high hlh
  rw [adjustValueD_LEFT, hstep, std_maxD]
  by_cases h : Dbl.lt (Dbl.sub rnd v (Dbl.fin s)) a.low = true
  · rw [if_pos h]
    exact ⟨hlow, hl1, Dbl.le_self a.low hl1, fun _ => hlh⟩
  · rw [if_neg h]
    have h2 : Dbl.lt (Dbl.sub rnd v (Dbl.fin s)) a.low = false := by simpa using h
    exact ⟨hx2, hx3, Dbl.le_of_lt_false _ _ hx3 hl1 h2,
      fun hvh => Dbl.le_trans_true _ v _ hx1 hvh⟩

/-- A right press with a finite positive step: the value that results is held, is no
NaN, is no greater than `high`, and is no less than `low` if the value was. -/
theorem right_step (rnd : ℚ → Dbl) (hr : Rounding rnd) (a : adjustmentD) (s : ℚ)
    (hstep : a.step = Dbl.fin s) (hpos : 0 < s) (hlh : Dbl.le a.low a.high = true)
    (hhigh : Dbl.Held rnd a.high) (v : Dbl) (hv : Dbl.Held rnd v) (hn : v ≠ Dbl.nan) :
    Dbl.Held rnd (adjustValueD rnd a RIGHT v) ∧ adjustValueD rnd a RIGHT v ≠ Dbl.nan ∧
      Dbl.le (adjustValueD rnd a RIGHT v) a.high = true ∧
      (Dbl.le a.low v = true → Dbl.le a.low (adjustValueD rnd a RIGHT v) = true) := by
  obtain ⟨hx1, hx2, hx3⟩ := Dbl.add_step rnd hr v s hpos hv hn
  obtain ⟨_, hh1⟩ := Dbl.ne_nan_of_le a.low a.high hlh
  rw [adjustValueD_RIGHT, hstep, std_minD]
  by_cases h : Dbl.lt a.high (Dbl.add rnd v (Dbl.fin s)) = true
  · rw [if_pos h]
    exact ⟨hhigh, hh1, Dbl.le_self a.high hh1, fun _ => hlh⟩
  · rw [if_neg h]
    have h2 : Dbl.lt a.high (Dbl.add rnd v (Dbl.fin s)) = false := by simpa using h
    exact ⟨hx2, hx3, Dbl.le_of_lt_false _ _ hh1 hx3 h2,
      fun hlv => Dbl.le_trans_true _ v _ hlv hx1⟩

/-- Any key with a finite positive step: a held value in `[low, high]` stays one. -/
theorem any_step (rnd : ℚ → Dbl) (hr : Rounding rnd) (a : adjustmentD) (s : ℚ)
    (hstep : a.step = Dbl.fin s) (hpos : 0 < s) (hlh : Dbl.le a.low a.high = true)
    (hlow : Dbl.Held rnd a.low) (hhigh : Dbl.Held rnd a.high) (key : Nat) (v : Dbl)
    (hv : Dbl.Held rnd v) (hin : inRangeD a v) :
    Dbl.Held rnd (adjustValueD rnd a key v) ∧ inRangeD a (adjustValueD rnd a key v) := by
  have hn : v ≠ Dbl.nan := (Dbl.ne_nan_of_le a.low v hin.1).2
  by_cases hl : key = LEFT
  · subst hl
    obtain ⟨h1, _, h3, h4⟩ := left_step rnd hr a s hstep hpos hlh hlow v hv hn
    exact ⟨h1, h3, h4 hin.2⟩
  · by_cases hk : key = RIGHT
    · subst hk
      obtain ⟨h1, _, h3, h4⟩ := right_step rnd hr a s hstep hpos hlh hhigh v hv hn
      exact ⟨h1, h4 hin.1, h3⟩
    · rw [adjustValueD_other rnd a key v hl hk]
      exact ⟨hv, hin⟩

theorem doWhileD_eq (rnd : ℚ → Dbl) (fmt : Dbl → List Char) (a : adjustmentD)
    (stdin : List Nat) (key : Nat) (s : SessionD) :
    doWhileD rnd fmt a stdin key s =
      if key = QUIT then s
      else if key = ESC then whileCondD rnd fmt a stdin.tail s
      else whileCondD rnd fmt a stdin (runBodyD rnd fmt a key s) := by
  cases stdin with
  | nil => simp [doWhileD, whileCondD]
  | cons k rest =>
    cases rest with
    | nil => simp [doWhileD, whileCondD]
    | cons k2 rest2 => simp [doWhileD, whileCondD]

theorem whileCondD_cons (rnd : ℚ → Dbl) (fmt : Dbl → List Char) (a : adjustmentD) (key : Nat)
    (stdin : List Nat) (s : SessionD) :
    whileCondD rnd fmt a (key :: stdin) s =
      if key = QUIT then s
      else if key = ESC then whileCondD rnd fmt a stdin.tail s
      else whileCondD rnd fmt a stdin (runBodyD rnd fmt a key s) := by
  rw [whileCondD, doWhileD_eq]

theorem adjustD_eq (rnd : ℚ → Dbl) (fmt : Dbl → List Char) (a : adjustmentD)
    (stdin : List Nat) :
    adjustD rnd fmt a stdin =
      whileCondD rnd fmt a stdin
        (runBodyD rnd fmt a 0 { value := a.initial, commands := [], echoes := [] }) := by
  rw [adjustD, doWhileD_eq]
  simp [QUIT, ESC]

theorem whileCondD_range (rnd : ℚ → Dbl) (hr : Rounding rnd) (fmt : Dbl → List Char)
    (a : adjustmentD) (s : ℚ) (hstep : a.step = Dbl.fin s) (hpos : 0 < s)
    (hlh : Dbl.le a.low a.high = true) (hlow : Dbl.Held rnd a.low)
    (hhigh : Dbl.Held rnd a.high) :
    ∀ (n : Nat) (stdin : List Nat) (st : SessionD), stdin.length ≤ n →
      Dbl.Held rnd st.value → inRangeD a st.value →
      Dbl.Held rnd (whileCondD rnd fmt a stdin st).value ∧
        inRangeD a (whileCondD rnd fmt a stdin st).value := by
  intro n
  induction n with
  | zero =>
    intro stdin st hn hv hin
    have : stdin = [] := List.length_eq_zero.mp (Nat.le_zero.mp hn)
    subst this
    exact ⟨hv, hin⟩
  | succ n ih =>
    intro stdin st hn hv hin
    cases stdin with
    | nil => exact ⟨hv, hin⟩
    | cons key rest =>
      rw [whileCondD_cons]
      have hrest : rest.length ≤ n := by simpa using hn
      split
      · exact ⟨hv, hin⟩
      · split
        · apply ih _ _ _ hv hin
          have := List.length_tail rest
          omega
        · obtain ⟨h1, h2⟩ := any_step rnd hr a s hstep hpos hlh hlow hhigh key st.value hv hin
          exact ih _ _ hrest h1 h2


theorem presses_bounds (rnd : ℚ → Dbl) (hr : Rounding rnd) (fmt : Dbl → List Char)
    (a : adjustmentD) (s : ℚ) (hstep : a.step = Dbl.fin s) (hpos : 0 < s)
    (hlh : Dbl.le a.low a.high = true) (hlow : Dbl.Held rnd a.low)
    (hhigh : Dbl.Held rnd a.high) :
    ∀ (keys : List Nat) (st : SessionD), (∀ k ∈ keys, k = LEFT ∨ k = RIGHT) →
      Dbl.Held rnd st.value → st.value ≠ Dbl.nan →
      (Dbl.Held rnd (whileCondD rnd fmt a keys st).value ∧
        (whileCondD rnd fmt a keys st).value ≠ Dbl.nan) ∧
      (Dbl.le a.low st.value = true ∨ LEFT ∈ keys →
        Dbl.le a.low (whileCondD rnd fmt a keys st).value = true) ∧
      (Dbl.le st.value a.high = true ∨ RIGHT ∈ keys →
        Dbl.le (whileCondD rnd fmt a keys st).value a.high = true) := by
  intro keys
  induction keys with
  | nil =>
    intro st _ hv hn
    refine ⟨⟨hv, hn⟩, ?_, ?_⟩
    · intro h
      rcases h with h | h
      · exact h
      · simp at h
    · intro h
      rcases h with h | h
      · exact h
      · simp at h
  | cons k ks ih =>
    intro st hkeys hv hn
    have hks : ∀ x ∈ ks, x = LEFT ∨ x = RIGHT := fun x hx => hkeys x (by simp [hx])
    rw [whileCondD_cons]
    rcases hkeys k (by simp) with hk | hk
    · subst hk
      rw [if_neg (by decide), if_neg (by decide)]
      obtain ⟨h1, h2, h3, h4⟩ := left_step rnd hr a s hstep hpos hlh hlow st.value hv hn
      obtain ⟨i1, i2, i3⟩ := ih (runBodyD rnd fmt a LEFT st) hks h1 h2
      refine ⟨i1, fun _ => i2 (Or.inl h3), ?_⟩
      intro h
      apply i3
      rcases h with h | h
      · exact Or.inl (h4 h)
      · rcases List.mem_cons.mp h with h | h
        · exact absurd h (by decide)
        · exact Or.inr h
    · subst hk
      rw [if_neg (by decide), if_neg (by decide)]
      obtain ⟨h1, h2, h3, h4⟩ := right_step rnd hr a s hstep hpos hlh hhigh st.value hv hn
      obtain ⟨i1, i2, i3⟩ := ih (runBodyD rnd fmt a RIGHT st) hks h1 h2
      refine ⟨i1, ?_, fun _ => i3 (Or.inl h3)⟩
      intro h
      apply i2
      rcases h with h | h
      · exact Or.inl (h4 h)
      · rcases List.mem_cons.mp h with h | h
        · exact absurd h (by decide)
        · exact Or.inr h

/-- C2, as stated, fails. With range 0 to 10, step 1 and initial value 100, one press
of left, read as the key `D` alone or as the sequence ESC `[` `D`, leaves the value at
99, above `high`: the initial value is not clamped. And with `low = 0`, `high` and
`step` infinite and initial value 0, the presses right, left give `inf - inf`, a NaN,
which `std::max` returns and which lies outside the range; and an initial value that
is a NaN stays one under left and right. -/
theorem clamping_fails_from_outside :
    startsAbove.low ≤ startsAbove.high ∧ 0 < startsAbove.step ∧
      (adjust formatDouble startsAbove [LEFT]).value = 99 ∧
      (adjust formatDouble startsAbove [ESC, 91, LEFT]).value = 99 ∧
      ¬ ((99 : ℚ) ≤ startsAbove.high) ∧
      (adjustD Dbl.fin showD startsAbove.toD [LEFT]).value = Dbl.fin 99 ∧
      ¬ inRangeD startsAbove.toD (Dbl.fin 99) ∧
      Dbl.le unboundedD.low unboundedD.high = true ∧
      Dbl.lt (Dbl.fin 0) unboundedD.step = true ∧
      (adjustD Dbl.fin showD unboundedD [RIGHT]).value = Dbl.pinf ∧
      (adjustD Dbl.fin showD unboundedD [RIGHT, LEFT]).value = Dbl.nan ∧
      ¬ inRangeD unboundedD Dbl.nan ∧
      (adjustD Dbl.fin showD { startsAbove.toD with initial := Dbl.nan }
        [LEFT, RIGHT]).value = Dbl.nan := by
  refine ⟨by norm_num [startsAbove], by norm_num [startsAbove], ?_, ?_,
    by norm_num [startsAbove], ?_, ?_, rfl, rfl, ?_, ?_, ?_, ?_⟩
  · simp [adjust, doWhile, runBody, adjustValue, startsAbove, LEFT, RIGHT, QUIT, ESC,
      std_max, std_min]
    norm_num
  · simp [adjust, doWhile, runBody, adjustValue, startsAbove, LEFT, RIGHT, QUIT, ESC,
      std_max, std_min]
    norm_num
  · simp [adjustD, doWhileD, runBodyD, adjustValueD, adjustment.toD, startsAbove, LEFT,
      RIGHT, QUIT, ESC, std_maxD, std_minD, Dbl.add, Dbl.sub, Dbl.neg, Dbl.lt]
    norm_num
  · intro h
    have := h.2
    simp [adjustment.toD, startsAbove, Dbl.le] at this
    norm_num at this
  · simp [adjustD, doWhileD, runBodyD, adjustValueD, unboundedD, LEFT, RIGHT, QUIT, ESC,
      std_maxD, std_minD, Dbl.add, Dbl.sub, Dbl.neg, Dbl.lt]
  · simp [adjustD, doWhileD, runBodyD, adjustValueD, unboundedD, LEFT, RIGHT, QUIT, ESC,
      std_maxD, std_minD, Dbl.add, Dbl.sub, Dbl.neg, Dbl.lt]
  · intro h
    have := h.1
    simp [unboundedD, Dbl.le] at this
  · simp [adjustD, doWhileD, runBodyD, adjustValueD, adjustment.toD, startsAbove, LEFT,
      RIGHT, QUIT, ESC, std_maxD, std_minD, Dbl.add, Dbl.sub, Dbl.neg, Dbl.lt]

/-- C2, amended: with `low ≤ high`, a finite `step > 0` and an initial value that is
no NaN, after any sequence of left and right presses the value is no less than `low`
if a left press is among them or the initial value was no less, and no greater than
`high` if a right press is among them or the initial value was no greater. So the
value lies in `[low, high]` once both keys have been pressed, and all along when the
initial value lies there. -/
theorem clamping_law (rnd : ℚ → Dbl) (hr : Rounding rnd) (fmt : Dbl → List Char)
    (a : adjustmentD) (s : ℚ) (keys : List Nat) (hstep : a.step = Dbl.fin s) (hpos : 0 < s)
    (hlh : Dbl.le a.low a.high = true) (hlow : Dbl.Held rnd a.low)
    (hhigh : Dbl.Held rnd a.high) (hinit : Dbl.Held rnd a.initial)
    (hnan : a.initial ≠ Dbl.nan) (hkeys : ∀ k ∈ keys, k = LEFT ∨ k = RIGHT) :
    (Dbl.le a.low a.initial = true ∨ LEFT ∈ keys →
        Dbl.le a.low (adjustD rnd fmt a keys).value = true) ∧
      (Dbl.le a.initial a.high = true ∨ RIGHT ∈ keys →
        Dbl.le (adjustD rnd fmt a keys).value a.high = true) ∧
      (inRangeD a a.initial ∨ (LEFT ∈ keys ∧ RIGHT ∈ keys) →
        inRangeD a (adjustD rnd fmt a keys).value) := by
  have h0 : adjustValueD rnd a 0 a.initial = a.initial :=
    adjustValueD_other rnd a 0 a.initial (by decide) (by decide)
  have hb := presses_bounds rnd hr fmt a s hstep hpos hlh hlow hhigh keys
    (runBodyD rnd fmt a 0 { value := a.initial, commands := [], echoes := [] }) hkeys
    (by simpa [runBodyD, h0] using hinit) (by simpa [runBodyD, h0] using hnan)
  simp only [runBodyD, h0] at hb
  rw [adjustD_eq]
  simp only [runBodyD, h0]
  obtain ⟨_, hb2, hb3⟩ := hb
  refine ⟨hb2, hb3, ?_⟩
  intro h
  rcases h with h | h
  · exact ⟨hb2 (Or.inl h.1), hb3 (Or.inl h.2)⟩
  · exact ⟨hb2 (Or.inr h.1), hb3 (Or.inr h.2)⟩

/-- C2, amended, at the adjustment of range 0 to 10 and step 1 that starts at 100,
with sums that are not rounded, and the presses left, right. -/
theorem clamping_law_witness :
    Rounding Dbl.fin ∧
      inRangeD startsAbove.toD (adjustD Dbl.fin showD startsAbove.toD [LEFT, RIGHT]).value := by
  have h := clamping_law Dbl.fin exact_rounding showD startsAbove.toD 1 [LEFT, RIGHT]
    (by simp [adjustment.toD, startsAbove]) (by norm_num)
    (by simp [adjustment.toD, startsAbove, Dbl.le])
    (by simp [adjustment.toD, Dbl.Held]) (by simp [adjustment.toD, Dbl.Held])
    (by simp [adjustment.toD, Dbl.Held]) (by simp [adjustment.toD]) (by decide)
  exact ⟨exact_rounding, h.2.2 (Or.inr ⟨by decide, by decide⟩)⟩

/-- C4, as stated, fails: with `low`, `step` and the value all infinite, `step > 0`
holds, and left at `low` gives `inf - inf`, a NaN, which `std::max` returns. -/
theorem saturation_fails_at_infinity :
    Dbl.lt (Dbl.fin 0) infiniteD.step = true ∧
      (runBodyD Dbl.fin showD infiniteD LEFT
        { value := infiniteD.low, commands := [], echoes := [] }).value = Dbl.nan ∧
      Dbl.nan ≠ infiniteD.low := by
  refine ⟨rfl, rfl, ?_⟩
  intro h
  cases h

/-- C4, amended: with a finite `step > 0`, left at `low` leaves the value at `low` and
right at `high` leaves it at `high`, whatever `low` and `high` are and however the
sums are rounded. -/
theorem saturation_finite_step (rnd : ℚ → Dbl) (hr : Rounding rnd) (fmt : Dbl → List Char)
    (a : adjustmentD) (s : ℚ) (cs : List (List Char)) (es : List (List Char × Dbl))
    (hstep : a.step = Dbl.fin s) (hpos : 0 < s) (hlow : Dbl.Held rnd a.low)
    (hhigh : Dbl.Held rnd a.high) :
    (runBodyD rnd fmt a LEFT { value := a.low, commands := cs, echoes := es }).value = a.low ∧
      (runBodyD rnd fmt a RIGHT { value := a.high, commands := cs, echoes := es }).value =
        a.high := by
  constructor
  · simp only [runBodyD]
    rw [adjustValueD_LEFT, hstep, std_maxD]
    by_cases hn : a.low = Dbl.nan
    · rw [hn]
      rfl
    · obtain ⟨hx1, _, hx3⟩ := Dbl.sub_step rnd hr a.low s hpos hlow hn
      by_cases h : Dbl.lt (Dbl.sub rnd a.low (Dbl.fin s)) a.low = true
      · rw [if_pos h]
      · rw [if_neg h]
        have h2 : Dbl.lt (Dbl.sub rnd a.low (Dbl.fin s)) a.low = false := by simpa using h
        exact Dbl.eq_of_le_le _ _ hx1 (Dbl.le_of_lt_false _ _ hx3 hn h2)
  · simp only [runBodyD]
    rw [adjustValueD_RIGHT, hstep, std_minD]
    by_cases hn : a.high = Dbl.nan
    · rw [hn]
      rfl
    · obtain ⟨hx1, _, hx3⟩ := Dbl.add_step rnd hr a.high s hpos hhigh hn
      by_cases h : Dbl.lt a.high (Dbl.add rnd a.high (Dbl.fin s)) = true
      · rw [if_pos h]
      · rw [if_neg h]
        have h2 : Dbl.lt a.high (Dbl.add rnd a.high (Dbl.fin s)) = false := by simpa using h
        exact Dbl.eq_of_le_le _ _ (Dbl.le_of_lt_false _ _ hn hx3 h2) hx1

/-- C4, amended, at the brightness example, whose step is 5, with sums that are not
rounded. -/
theorem saturation_finite_step_witness :
    Rounding Dbl.fin ∧
      (runBodyD Dbl.fin showD brightness.toD LEFT
        { value := brightness.toD.low, commands := [], echoes := [] }).value =
          brightness.toD.low ∧
      (runBodyD Dbl.fin showD brightness.toD RIGHT
        { value := brightness.toD.high, commands := [], echoes := [] }).value =
          brightness.toD.high :=
  ⟨exact_rounding,
    saturation_finite_step Dbl.fin exact_rounding showD brightness.toD 5 [] []
      (by simp [adjustment.toD, brightness]) (by norm_num)
      (by simp [adjustment.toD, Dbl.Held]) (by simp [adjustment.toD, Dbl.Held])⟩

/-- C12, as stated, fails: with `low = 0`, `high` and `step` infinite, the hypotheses
hold and the infinite value lies in `[low, high]`, yet one left press gives `inf - inf`,
a NaN, which lies outside; and from the initial value 0 the presses right, left end
there. -/
theorem range_broken_at_infinity :
    Dbl.le unboundedD.low unboundedD.high = true ∧
      Dbl.lt (Dbl.fin 0) unboundedD.step = true ∧
      inRangeD unboundedD Dbl.pinf ∧
      (whileCondD Dbl.fin showD unboundedD [LEFT]
        { value := Dbl.pinf, commands := [], echoes := [] }).value = Dbl.nan ∧
      inRangeD unboundedD unboundedD.initial ∧
      (adjustD Dbl.fin showD unboundedD [RIGHT, LEFT]).value = Dbl.nan ∧
      ¬ inRangeD unboundedD Dbl.nan := by
  refine ⟨rfl, rfl, ⟨rfl, rfl⟩, rfl, ⟨?_, rfl⟩, ?_, ?_⟩
  · simp [unboundedD, Dbl.le]
  · simp [adjustD, doWhileD, runBodyD, adjustValueD, unboundedD, LEFT, RIGHT, QUIT, ESC,
      std_maxD, std_minD, Dbl.add, Dbl.sub, Dbl.neg, Dbl.lt]
  · intro h
    have := h.1
    simp [unboundedD, Dbl.le] at this

/-- C12, amended: with `low ≤ high` and a finite `step > 0`, however the sums are
rounded: from a state whose value lies in `[low, high]`, the value after any one input
byte, and after any input, lies in `[low, high]`; and from an initial value in
`[low, high]` the value that `adjust` returns lies in `[low, high]`. -/
theorem range_invariant_finite_step (rnd : ℚ → Dbl) (hr : Rounding rnd)
    (fmt : Dbl → List Char) (a : adjustmentD) (s : ℚ) (hstep : a.step = Dbl.fin s)
    (hpos : 0 < s) (hlh : Dbl.le a.low a.high = true) (hlow : Dbl.Held rnd a.low)
    (hhigh : Dbl.Held rnd a.high) :
    (∀ (st : SessionD) (key : Nat), Dbl.Held rnd st.value → inRangeD a st.value →
        inRangeD a (whileCondD rnd fmt a [key] st).value) ∧
      (∀ (st : SessionD) (stdin : List Nat), Dbl.Held rnd st.value → inRangeD a st.value →
        inRangeD a (whileCondD rnd fmt a stdin st).value) ∧
      (∀ stdin : List Nat, Dbl.Held rnd a.initial → inRangeD a a.initial →
        inRangeD a (adjustD rnd fmt a stdin).value) := by
  refine ⟨?_, ?_, ?_⟩
  · intro st key hv hin
    exact (whileCondD_range rnd hr fmt a s hstep hpos hlh hlow hhigh 1 [key] st
      (le_refl _) hv hin).2
  · intro st stdin hv hin
    exact (whileCondD_range rnd hr fmt a s hstep hpos hlh hlow hhigh stdin.length stdin st
      (le_refl _) hv hin).2
  · intro stdin hv hin
    rw [adjustD_eq]
    have h0 : adjustValueD rnd a 0 a.initial = a.initial :=
      adjustValueD_other rnd a 0 a.initial (by decide) (by decide)
    exact (whileCondD_range rnd hr fmt a s hstep hpos hlh hlow hhigh stdin.length stdin _
      (le_refl _) (by simpa [runBodyD, h0] using hv) (by simpa [runBodyD, h0] using hin)).2

/-- C12, amended, at the brightness example with sums that are not rounded: the value
that `adjust` returns lies in the range 15 to 95 on every input. -/
theorem range_invariant_finite_step_witness :
    Rounding Dbl.fin ∧
      ∀ stdin : List Nat,
        inRangeD brightness.toD (adjustD Dbl.fin showD brightness.toD stdin).value := by
  have h := range_invariant_finite_step Dbl.fin exact_rounding showD brightness.toD 5
    (by simp [adjustment.toD, brightness]) (by norm_num)
    (by simp [adjustment.toD, brightness, Dbl.le]; norm_num)
    (by simp [adjustment.toD, Dbl.Held]) (by simp [adjustment.toD, Dbl.Held])
  refine ⟨exact_rounding, fun stdin => h.2.2 stdin (by simp [adjustment.toD, Dbl.Held]) ?_⟩
  constructor <;> simp [adjustment.toD, brightness, Dbl.le] <;> norm_num


/-! ### The exit code of `main` -/

/-- The run of the witness: the record `brightness` is found, one right press takes
the value from 20 to 25, and the run ends with exit code 0. -/
theorem main_brightness_run :
    ∃ r, main scanLf Dbl.fin showD noLocals plainEnv
        ["adjust".toList, "brightness".toList] (Source.text exampleConfig)
        [RIGHT, QUIT] = Outcome.done r ∧ r.code = 0 ∧
      ∃ s, Event.adjust s ∈ r.events ∧ s.value = Dbl.fin 25 := by
  have hg : getadjustmentWith scanLf noLocals (some exampleConfig) "brightness".toList
      emptyAdjustment = Outcome.done (true, brightness) := by
    rw [← getadjustment_eq_with]
    decide
  have hv : (adjustD Dbl.fin showD brightness.toD [RIGHT, QUIT]).value = Dbl.fin 25 := by
    simp [adjustD, doWhileD, runBodyD, adjustValueD, adjustment.toD, brightness, LEFT, RIGHT,
      QUIT, ESC, std_minD, Dbl.add, Dbl.lt]
    norm_num
  have harg : ["adjust".toList, "brightness".toList].getD 1 [] = "brightness".toList := rfl
  refine ⟨{ code := 0
            events :=
              [Event.initscr, Event.cbreak, Event.lookup "brightness".toList,
                Event.adjust (adjustD Dbl.fin showD brightness.toD [RIGHT, QUIT]),
                Event.printf [], Event.endwin] }, ?_, rfl, _, ?_, hv⟩
  · simp only [main, List.length_cons, List.length_nil]
    rw [if_neg (by decide), if_neg (by decide), harg]
    simp only [getadjustmentFrom]
    rw [hg]
    rfl
  · simp

end Adjust
